import Mathlib

/-!
# Verification of the vaultsync secret-tree synchronization engine

This file gives a shallow embedding, in Lean 4, of the path-translation,
tree-walking and diff-generation logic of the `vaultsync` Go program, and
proves (or refutes) the specification claims about it.

Go strings are modelled as `List Char` (named `GoStr`).  The Go standard
library functions used by the program (`strings.Split`, `strings.Join`,
`strings.TrimPrefix`, `strings.TrimSuffix`, `strings.HasSuffix`) are modelled
by the corresponding total functions on `List Char`; `filepath.Join` and
`filepath.Rel` are modelled for cleaned Unix paths (separator `'/'`), which is
the shape of every path the program builds.  Effectful collaborators (the
Vault HTTP API, the file system, the YAML codec) are modelled as explicit
oracle records, so the control flow of the Go functions around them can be
embedded faithfully.
-/

namespace VaultSync

/-- A Go string, modelled as its list of characters. -/
abbrev GoStr := List Char

/-- Shorthand turning a Lean string literal into a `GoStr`. -/
def gs (s : String) : GoStr := s.data

/-- Go `strings.Split(s, sep)` for a one-character separator `sep`:
`List.splitOn` has exactly Go's semantics (`Split("", sep) = [""]`,
adjacent separators yield empty fields). -/
def goSplit (sep : Char) (s : GoStr) : List GoStr := s.splitOn sep

/-- Go `strings.Join(parts, sep)` for a one-character separator. -/
def goJoin (sep : Char) (parts : List GoStr) : GoStr := List.intercalate [sep] parts

/-- Go `strings.TrimPrefix(s, pre)`: drop `pre` if it is a prefix, else `s`. -/
def goTrimPre (pre s : GoStr) : GoStr :=
  if pre.isPrefixOf s then s.drop pre.length else s

/-- Go `strings.TrimSuffix(s, suf)`: drop `suf` if it is a suffix, else `s`. -/
def goTrimSuf (suf s : GoStr) : GoStr :=
  if suf.isSuffixOf s then s.take (s.length - suf.length) else s

/-- Go `strings.HasSuffix(s, suf)`. -/
def goHasSuf (suf s : GoStr) : Bool := suf.isSuffixOf s

/-- Go `filepath.Join(a, b)` on Unix is `Clean(a + "/" + b)`; for the cleaned,
non-empty path components this program produces, that is `a ++ "/" ++ b`,
which is how we model it. -/
def filepathJoin (a b : GoStr) : GoStr := a ++ '/' :: b

/-- Go `filepath.Rel(base, target)` for the only case arising here: `target`
lies strictly below `base` (both cleaned), so the result is `target` with
`base ++ "/"` stripped.  Any other case is modelled as failure (`none`);
Go would return an error or a `..`-path there. -/
def filepathRel (base target : GoStr) : Option GoStr :=
  if (base ++ ['/']).isPrefixOf target then some (target.drop (base.length + 1))
  else none

/-! ## Path translation (GetSecret / PutSecret, lines 300-310 and 452-460)

Both `GetSecret` and `PutSecret` begin with the same inline conversion from a
KVv2 metadata path to the corresponding data path; the spec names it
`toDataPath`:

```go
dataPath := secretPath
parts := strings.Split(secretPath, "/")
if len(parts) >= 2 && parts[1] == "metadata" {
    dataPath = parts[0] + "/data/" + strings.Join(parts[2:], "/")
}
```
-/

/-- The metadata-to-data path conversion performed by `GetSecret` and
`PutSecret`. -/
def toDataPath (secretPath : GoStr) : GoStr :=
  match goSplit '/' secretPath with
  | p0 :: p1 :: rest =>
      if p1 = gs "metadata" then p0 ++ gs "/data/" ++ goJoin '/' rest
      else secretPath
  | _ => secretPath

/-- `GetSecret` fetches the converted data path over HTTP; the HTTP layer is
an oracle keyed by the final request path. -/
def getSecret {Payload : Type} (httpGet : GoStr → Except GoStr Payload)
    (secretPath : GoStr) : Except GoStr Payload :=
  httpGet (toDataPath secretPath)

/-! ## The remote tree walker's leaf-path rewrite
(`pullSecretsRecursivelyHelper`, lines 367-376)

```go
secretPath := currentPath + "/" + key
if len(currentPath) >= 11 && currentPath[:11] == "kv/metadata" {
    secretPath = "kv/data" + currentPath[11:] + "/" + key
}
```
(The Go code indexes bytes; every byte of `"kv/metadata"` is ASCII and `'/'`
never occurs inside a multibyte UTF-8 character, so the char-level model
decides the comparison identically.) -/

/-- The secret path the walker passes to `GetSecret` for a non-folder key. -/
def walkerSecretPath (currentPath key : GoStr) : GoStr :=
  if 11 ≤ currentPath.length ∧ currentPath.take 11 = gs "kv/metadata" then
    gs "kv/data" ++ currentPath.drop 11 ++ gs "/" ++ key
  else currentPath ++ gs "/" ++ key

/-- The data path at which the walker's leaf fetch finally arrives: the
hardcoded `kv/metadata` prefix rewrite, then `GetSecret`'s own conversion. -/
def walkerFetchDataPath (currentPath key : GoStr) : GoStr :=
  toDataPath (walkerSecretPath currentPath key)

/-- Spec-side path substitution: replace segment 1 of the `/`-split path by
`"data"`, keeping every other segment unchanged. -/
def segSubstData (p : GoStr) : GoStr :=
  goJoin '/' ((goSplit '/' p).set 1 (gs "data"))

/-! ## writeSecretToFile's file-path computation (lines 403-429)

```go
relativePath := strings.TrimPrefix(secretPath, metadataPath)
relativePath = strings.TrimPrefix(relativePath, "/")
if relativePath == "" { return fmt.Errorf("cannot determine file name ...") }
parts := strings.Split(metadataPath, "/")
if len(parts) > 2 {
    subPath := strings.Join(parts[2:], "/")
    targetDir = filepath.Join(outputDir, subPath)
} else { targetDir = outputDir }
filePath := filepath.Join(targetDir, relativePath+".yaml")
```
-/

/-- The local file path `writeSecretToFile` writes a pulled secret to, or the
error it returns when the relative path is empty. -/
def writeSecretFilePath (secretPath metadataPath outputDir : GoStr) :
    Except GoStr GoStr :=
  let relativePath := goTrimPre (gs "/") (goTrimPre metadataPath secretPath)
  if relativePath = [] then
    .error (gs "cannot determine file name for secret " ++ secretPath)
  else
    let parts := goSplit '/' metadataPath
    let targetDir :=
      if 2 < parts.length then filepathJoin outputDir (goJoin '/' (parts.drop 2))
      else outputDir
    .ok (filepathJoin targetDir (relativePath ++ gs ".yaml"))

/-! ## PushSecretsFromFiles' per-file path conversion (lines 497-560)

```go
parts := strings.Split(metadataPath, "/")
if len(parts) < 2 || parts[1] != "metadata" { return fmt.Errorf("invalid metadata path: %s", metadataPath) }
kvEngine := parts[0]
if len(parts) > 2 { subPath = strings.Join(parts[2:], "/"); baseDir = filepath.Join(inputDir, subPath) } else { baseDir = inputDir }
...
relativePath, err := filepath.Rel(baseDir, filePath)
secretPath := strings.TrimSuffix(relativePath, ".yaml")
secretPath = strings.ReplaceAll(secretPath, string(filepath.Separator), "/")  // identity on Unix
if subPath != "" { vaultPath = kvEngine + "/metadata/" + subPath + "/" + secretPath } else { vaultPath = kvEngine + "/metadata/" + secretPath }
```
-/

/-- The vault path `PushSecretsFromFiles` derives for one local file.
`none` models the `invalid metadata path` error or a `filepath.Rel` failure.
(`strings.ReplaceAll(·, string(filepath.Separator), "/")` is the identity on
Unix, where the separator is `'/'`.) -/
def pushFileToVaultPath (inputDir metadataPath filePath : GoStr) : Option GoStr :=
  match goSplit '/' metadataPath with
  | kvEngine :: p1 :: restParts =>
      if p1 = gs "metadata" then
        let subPath := goJoin '/' restParts
        let baseDir :=
          if restParts.length ≠ 0 then filepathJoin inputDir subPath else inputDir
        match filepathRel baseDir filePath with
        | some relativePath =>
            let secretPath := goTrimSuf (gs ".yaml") relativePath
            some (if subPath ≠ [] then
                    kvEngine ++ gs "/metadata/" ++ subPath ++ gs "/" ++ secretPath
                  else kvEngine ++ gs "/metadata/" ++ secretPath)
        | none => none
      else none
  | _ => none

/-! ## generateShortHash (lines 719-729)

```go
hash := 0
for _, c := range content { hash = hash*31 + int(c) }
if hash < 0 { hash = -hash }
return fmt.Sprintf("%07x", hash%0xfffffff)
```
`int` is 64-bit; Go signed arithmetic wraps in two's complement, `%` truncates
toward zero, and `%07x` zero-pads to overall width 7 (a minus sign counts
toward the width and precedes the zeros). -/

/-- Two's-complement wrap-around of an integer to the `int64` range. -/
def wrap64 (x : Int) : Int := (x + 2 ^ 63) % 2 ^ 64 - 2 ^ 63

/-- One step of the rolling hash: `hash = hash*31 + int(c)` in `int64`. -/
def hashStep (h : Int) (c : Char) : Int := wrap64 (h * 31 + (c.toNat : Int))

/-- The rolling hash over the whole text. -/
def rollingHash (content : GoStr) : Int := content.foldl hashStep 0

/-- Go's `%` (truncated remainder) for a positive divisor. -/
def goRem (a b : Int) : Int := if 0 ≤ a then a % b else -(-a % b)

/-- The lowercase hexadecimal digit character for `d < 16`. -/
def hexDigitChar (d : Nat) : Char :=
  if d < 10 then Char.ofNat (48 + d) else Char.ofNat (87 + d)

/-- Hex digits of `n`, most significant first; `fuel` bounds the recursion
(`fuel = n + 1` always suffices, since `n / 16 < n` for `n ≥ 16`). -/
def natToHexCore : Nat → Nat → GoStr
  | 0, _ => []
  | fuel + 1, n =>
    if n < 16 then [hexDigitChar n]
    else natToHexCore fuel (n / 16) ++ [hexDigitChar (n % 16)]

/-- Hexadecimal digits of a natural number, lowercase, as Go `%x` prints. -/
def natToHex (n : Nat) : GoStr := natToHexCore (n + 1) n

/-- Left-pad with `'0'` to width `w` (no truncation). -/
def padZero (w : Nat) (s : GoStr) : GoStr := List.replicate (w - s.length) '0' ++ s

/-- Go `fmt.Sprintf("%07x", x)` for an `int` whose magnitude fits in 7 hex
digits: zero-padded to overall width 7, the sign (if any) leading. -/
def fmt07x (x : Int) : GoStr :=
  if x < 0 then '-' :: padZero 6 (natToHex x.natAbs) else padZero 7 (natToHex x.toNat)

/-- `generateShortHash`: the `if hash < 0 { hash = -hash }` negation also
wraps (so `-minInt64` stays `minInt64`). -/
def generateShortHash (content : GoStr) : GoStr :=
  let hash := rollingHash content
  let hash := if hash < 0 then wrap64 (-hash) else hash
  fmt07x (goRem hash 0xfffffff)

/-! ## generateUnifiedDiff and writeHunk (lines 614-717)

The diff is a positional line-by-line comparison.  The buffer is modelled as
the list of lines written so far (every `WriteString` in the Go code writes
exactly one `\n`-terminated line); `renderLines` recovers the final string. -/

/-- Go `strings.HasPrefix(l, " ")`. -/
def isSpaceLine (l : GoStr) : Bool := l.head? = some ' '

/-- Go `strings.HasPrefix(l, "-")`. -/
def isMinusLine (l : GoStr) : Bool := l.head? = some '-'

/-- Go `strings.HasPrefix(l, "+")`. -/
def isPlusLine (l : GoStr) : Bool := l.head? = some '+'

/-- Decimal rendering of a natural number, as Go `%d`. -/
def natToDec (n : Nat) : GoStr := (Nat.repr n).data

/-- `writeHunk`'s `oldCount`: lines starting with `"-"` or `" "`. -/
def hunkOldCount (lines : List GoStr) : Nat :=
  (lines.filter fun l => isMinusLine l || isSpaceLine l).length

/-- `writeHunk`'s `newCount`: lines starting with `"+"` or `" "`. -/
def hunkNewCount (lines : List GoStr) : Nat :=
  (lines.filter fun l => isPlusLine l || isSpaceLine l).length

/-- The `@@ -start+1,oldCount +start+1,newCount @@` hunk header line. -/
def hunkHeader (start oldCount newCount : Nat) : GoStr :=
  gs "@@ -" ++ natToDec (start + 1) ++ gs "," ++ natToDec oldCount ++
    gs " +" ++ natToDec (start + 1) ++ gs "," ++ natToDec newCount ++ gs " @@"

/-- `writeHunk(diff, start, end, oldLen, newLen, lines)`: counts the old/new
lines, writes the header, then the lines.  (`endIdx`, `oldLen` and `newLen`
are parameters of the Go function but are never used by it.) -/
def writeHunk (start endIdx oldLen newLen : Nat) (lines : List GoStr) : List GoStr :=
  hunkHeader start (hunkOldCount lines) (hunkNewCount lines) :: lines

/-- Number of trailing lines of `lines` that start with `" "` — the
`contextCount` back-scan in `generateUnifiedDiff`. -/
def trailingSpaceCount (lines : List GoStr) : Nat :=
  (lines.reverse.takeWhile isSpaceLine).length

/-- The mutable state of `generateUnifiedDiff`'s main loop. -/
structure DiffState where
  out : List GoStr
  inHunk : Bool
  hunkStart : Nat
  hunkLines : List GoStr
deriving Repr

/-- The context lines collected when a new hunk starts at index `i`: the
`for j := hunkStart; j < i; j++` loop with `hunkStart = max(0, i-3)`,
keeping only indices inside `existingLines`. -/
def diffCtx (existingLines : List GoStr) (i : Nat) : List GoStr :=
  (List.range' (i - 3) (i - (i - 3))).filterMap fun j =>
    if j < existingLines.length then some (' ' :: existingLines.getD j [])
    else none

/-- One iteration (index `i`) of `generateUnifiedDiff`'s main loop. -/
def diffStep (existingLines newLines : List GoStr) (st : DiffState) (i : Nat) :
    DiffState :=
  let existingLine := existingLines.getD i []
  let newLine := newLines.getD i []
  if existingLine ≠ newLine then
    let st1 :=
      if !st.inHunk then
        -- start a new hunk: hunkStart = max(0, i-3), context before the change
        { st with inHunk := true, hunkStart := i - 3,
                  hunkLines := diffCtx existingLines i }
      else st
    let hl1 :=
      if i < existingLines.length ∧ existingLine ≠ [] then
        st1.hunkLines ++ ['-' :: existingLine]
      else st1.hunkLines
    let hl2 :=
      if i < newLines.length ∧ newLine ≠ [] then hl1 ++ ['+' :: newLine] else hl1
    { st1 with hunkLines := hl2 }
  else
    if st.inHunk then
      let hl := st.hunkLines ++ [' ' :: existingLine]
      let contextCount := trailingSpaceCount hl
      if 3 ≤ contextCount then
        { out := st.out ++ writeHunk st.hunkStart (i - contextCount + 1)
            existingLines.length newLines.length
            (hl.take (hl.length - contextCount + 3)),
          inHunk := false, hunkStart := st.hunkStart, hunkLines := hl }
      else { st with hunkLines := hl }
    else st

/-- The loop over `i = 0 .. maxLines-1` followed by the final
`if inHunk { writeHunk ... }` flush: the body lines of the diff. -/
def diffBodyLines (existing newText : GoStr) : List GoStr :=
  let existingLines := goSplit '\n' existing
  let newLines := goSplit '\n' newText
  let maxLines := max existingLines.length newLines.length
  let st := (List.range maxLines).foldl (diffStep existingLines newLines)
    ⟨[], false, 0, []⟩
  if st.inHunk then
    st.out ++ writeHunk st.hunkStart maxLines existingLines.length newLines.length
      st.hunkLines
  else st.out

/-- The four header lines of a modification diff. -/
def diffHeaderLines (existing newText filename : GoStr) : List GoStr :=
  [gs "diff --git a/" ++ filename ++ gs " b/" ++ filename,
   gs "index " ++ generateShortHash existing ++ gs ".." ++
     generateShortHash newText ++ gs " 100644",
   gs "--- a/" ++ filename,
   gs "+++ b/" ++ filename]

/-- Concatenate lines, terminating each with `'\n'` (the buffer contents). -/
def renderLines (ls : List GoStr) : GoStr := (ls.map fun l => l ++ ['\n']).flatten

/-- `generateUnifiedDiff(existing, new, filename)`. -/
def generateUnifiedDiff (existing newText filename : GoStr) : GoStr :=
  if existing = newText then []
  else renderLines (diffHeaderLines existing newText filename ++
    diffBodyLines existing newText)

/-! ## showDryRunDiff (lines 571-612)

```go
existingData, err := v.GetSecret(vaultPath)
...
if err != nil {  // new-file diff
    ... header lines ...
    for _, line := range strings.Split(string(newYaml), "\n") {
        if line != "" || strings.HasSuffix(string(newYaml), "\n") {
            newFileDiff.WriteString(fmt.Sprintf("+%s\n", line))
        }
    }
} else { diffOutput = generateUnifiedDiff(...) }
if diffOutput != "" { outputDiff(diffOutput) }
```
-/

/-- The lines of the "new file" diff for a secret absent remotely. -/
def newFileDiffLines (vaultPath newYaml : GoStr) : List GoStr :=
  [gs "diff --git a/" ++ vaultPath ++ gs " b/" ++ vaultPath,
   gs "new file mode 100644",
   gs "index 0000000.." ++ generateShortHash newYaml,
   gs "--- /dev/null",
   gs "+++ b/" ++ vaultPath] ++
  (goSplit '\n' newYaml).filterMap fun line =>
    if line ≠ [] ∨ goHasSuf (gs "\n") newYaml then some ('+' :: line) else none

/-- What `showDryRunDiff` hands to the output sink: `none` when the generated
diff text is empty (nothing is printed), `some text` otherwise.  `fetched` is
the outcome of the `GetSecret` call and `marshal` the YAML encoder for
payloads (a deterministic external collaborator). -/
def showDryRunDiffOutput {Payload : Type} (marshal : Payload → GoStr)
    (fetched : Except GoStr Payload) (newData : Payload) (vaultPath : GoStr) :
    Option GoStr :=
  let newYaml := marshal newData
  let diffOutput :=
    match fetched with
    | .error _ => renderLines (newFileDiffLines vaultPath newYaml)
    | .ok existingData => generateUnifiedDiff (marshal existingData) newYaml vaultPath
  if diffOutput = [] then none else some diffOutput

/-! ## The pull walk (PullSecretsRecursively / pullSecretsRecursivelyHelper /
PullSecretsToFiles, lines 345-450)

The Vault server and the file system are an oracle record.  The Go recursion
has no explicit bound (it follows the finite remote tree); the embedding
carries a fuel parameter, and each theorem supplies enough fuel for the
finitely many levels its hypotheses mention. -/

/-- The effectful collaborators of the pull path: `list` is `ListSecrets`
(HTTP LIST), `httpGet` the HTTP GET keyed by the final (data) request path,
and `writeFile` the combined mkdir/encode/write outcome for one output file
path. -/
structure VaultEnv (Payload : Type) where
  list : GoStr → Except GoStr (List GoStr)
  httpGet : GoStr → Except GoStr Payload
  writeFile : GoStr → Payload → Except GoStr Unit

/-- Result of the recursive pull walk: the accumulated `(fullPath, payload)`
map (insertion-ordered), the `Warning:` lines printed, and the returned
error, if any. -/
structure PullResult (Payload : Type) where
  secrets : List (GoStr × Payload)
  warnings : List GoStr
  err : Option GoStr
deriving Repr

mutual

/-- `pullSecretsRecursivelyHelper`: list the current path (a listing failure
aborts with a wrapped error naming the path), then process the keys. -/
def pullSecretsRecursivelyHelper {Payload : Type} (env : VaultEnv Payload)
    (fuel : Nat) (currentPath : GoStr) (secrets : List (GoStr × Payload))
    (warnings : List GoStr) : PullResult Payload :=
  match fuel with
  | 0 => ⟨secrets, warnings, some (gs "recursion limit exceeded")⟩
  | fuel' + 1 =>
    match env.list currentPath with
    | .error e => ⟨secrets, warnings,
        some (gs "failed to list secrets at " ++ currentPath ++ gs ": " ++ e)⟩
    | .ok keys => pullKeysLoop env fuel' currentPath keys secrets warnings
termination_by (fuel, 0)

/-- The `for _, key := range keys` loop of `pullSecretsRecursivelyHelper`:
a key ending in `'/'` is a folder (recurse, propagating any error); otherwise
fetch the leaf (a fetch failure becomes a warning and the leaf is skipped). -/
def pullKeysLoop {Payload : Type} (env : VaultEnv Payload) (fuel : Nat)
    (currentPath : GoStr) (keys : List GoStr)
    (secrets : List (GoStr × Payload)) (warnings : List GoStr) :
    PullResult Payload :=
  match keys with
  | [] => ⟨secrets, warnings, none⟩
  | key :: rest =>
    if key.getLast? = some '/' then
      let folderPath := currentPath ++ gs "/" ++ key.dropLast ++ gs "/metadata"
      let r := pullSecretsRecursivelyHelper env fuel folderPath secrets warnings
      match r.err with
      | some e => ⟨r.secrets, r.warnings, some e⟩
      | none => pullKeysLoop env fuel currentPath rest r.secrets r.warnings
    else
      match getSecret env.httpGet (walkerSecretPath currentPath key) with
      | .error e => pullKeysLoop env fuel currentPath rest secrets
          (warnings ++ [gs "Warning: Failed to get secret " ++ currentPath ++
            gs "/" ++ key ++ gs ": " ++ e])
      | .ok d => pullKeysLoop env fuel currentPath rest
          (secrets ++ [(currentPath ++ gs "/" ++ key, d)]) warnings
termination_by (fuel, keys.length + 1)

end

/-- `writeSecretToFile`: compute the file path (an empty relative path is an
error), then create directories, encode and write — the I/O outcome is the
`writeFile` oracle keyed by the computed path. -/
def writeSecretToFileResult {Payload : Type} (env : VaultEnv Payload)
    (secretPath : GoStr) (d : Payload) (metadataPath outputDir : GoStr) :
    Except GoStr Unit :=
  match writeSecretFilePath secretPath metadataPath outputDir with
  | .error e => .error e
  | .ok fp => env.writeFile fp d

/-- `PullSecretsToFiles`: run the recursive pull (wrapping its error, if any),
then write each secret, downgrading write failures to warnings; returns the
warnings printed and the returned error. -/
def pullSecretsToFiles {Payload : Type} (env : VaultEnv Payload) (fuel : Nat)
    (basePath outputDir : GoStr) : List GoStr × Option GoStr :=
  let r := pullSecretsRecursivelyHelper env fuel basePath [] []
  match r.err with
  | some e => (r.warnings, some (gs "failed to pull secrets: " ++ e))
  | none =>
    (r.secrets.foldl (fun ws sd =>
        match writeSecretToFileResult env sd.1 sd.2 basePath outputDir with
        | .error e => ws ++
            [gs "Warning: Failed to write secret " ++ sd.1 ++ gs ": " ++ e]
        | .ok _ => ws) r.warnings,
     none)

/-! ## The push walk (PushSecretsFromFiles, lines 497-568)

`filepath.Walk` visits the entries of the local tree in order and stops at
the first walk-function error; the local tree is a list of entries, the file
system and YAML decoder are oracles. -/

/-- The effectful collaborators of the push path. -/
structure PushEnv (Payload : Type) where
  readFile : GoStr → Except GoStr GoStr
  parseYaml : GoStr → Except GoStr Payload
  putSecret : GoStr → Payload → Except GoStr Unit

/-- One entry `filepath.Walk` visits. -/
structure FileEntry where
  path : GoStr
  isDir : Bool
deriving Repr

/-- `vaultPath` construction from engine, sub-path and secret path. -/
def vaultPathFor (kvEngine subPath secretPath : GoStr) : GoStr :=
  if subPath ≠ [] then
    kvEngine ++ gs "/metadata/" ++ subPath ++ gs "/" ++ secretPath
  else kvEngine ++ gs "/metadata/" ++ secretPath

/-- The walk function of `PushSecretsFromFiles` for one entry: returns the
`PutSecret` calls made (`[]` or one path) and the walk-function result. -/
def pushWalkStep {Payload : Type} (env : PushEnv Payload) (dryRun : Bool)
    (baseDir kvEngine subPath : GoStr) (f : FileEntry) :
    List GoStr × Except GoStr Unit :=
  if f.isDir || !goHasSuf (gs ".yaml") f.path then ([], .ok ())
  else
    match env.readFile f.path with
    | .error e => ([], .error (gs "failed to read file " ++ f.path ++ gs ": " ++ e))
    | .ok yamlData =>
      match env.parseYaml yamlData with
      | .error e =>
          ([], .error (gs "failed to parse YAML in " ++ f.path ++ gs ": " ++ e))
      | .ok secretData =>
        match filepathRel baseDir f.path with
        | none => ([], .error (gs "failed to get relative path"))
        | some relativePath =>
          let vaultPath :=
            vaultPathFor kvEngine subPath (goTrimSuf (gs ".yaml") relativePath)
          if dryRun then ([], .ok ())
          else ([vaultPath], env.putSecret vaultPath secretData)

/-- `filepath.Walk`: apply the walk function to each entry in order; the
first error stops the traversal and is returned. -/
def pushWalk {Payload : Type} (env : PushEnv Payload) (dryRun : Bool)
    (baseDir kvEngine subPath : GoStr) (files : List FileEntry) :
    List GoStr × Option GoStr :=
  match files with
  | [] => ([], none)
  | f :: rest =>
    let s := pushWalkStep env dryRun baseDir kvEngine subPath f
    match s.2 with
    | .error e => (s.1, some e)
    | .ok _ =>
      let t := pushWalk env dryRun baseDir kvEngine subPath rest
      (s.1 ++ t.1, t.2)

/-- `PushSecretsFromFiles`: validate the metadata path, derive the base
directory, check it exists (`dirExists` oracle), then walk `files`. -/
def pushSecretsFromFiles {Payload : Type} (env : PushEnv Payload)
    (dirExists : GoStr → Bool) (dryRun : Bool) (inputDir metadataPath : GoStr)
    (files : List FileEntry) : List GoStr × Option GoStr :=
  match goSplit '/' metadataPath with
  | kvEngine :: p1 :: restParts =>
    if p1 = gs "metadata" then
      let subPath := goJoin '/' restParts
      let baseDir :=
        if restParts.length ≠ 0 then filepathJoin inputDir subPath else inputDir
      if dirExists baseDir then pushWalk env dryRun baseDir kvEngine subPath files
      else ([], some (gs "directory " ++ baseDir ++
        gs " does not exist (derived from vault path " ++ metadataPath ++ gs ")"))
    else ([], some (gs "invalid metadata path: " ++ metadataPath))
  | _ => ([], some (gs "invalid metadata path: " ++ metadataPath))

/-! ## Vocabulary for the claim statements -/

/-- Number of `-` lines (diff body lines, hunk headers start with `@`). -/
def minusCount (xs : List GoStr) : Nat := (xs.filter isMinusLine).length

/-- Number of `+` lines. -/
def plusCount (xs : List GoStr) : Nat := (xs.filter isPlusLine).length

/-- Number of leading lines starting with `" "`. -/
def leadingSpaceCount (xs : List GoStr) : Nat := (xs.takeWhile isSpaceLine).length

/-- A well-formed hunk body: every line is marked `' '`, `'-'` or `'+'`; at
most 3 context lines before and after; and at least one non-context line. -/
def GoodHunkLines (lines : List GoStr) : Prop :=
  (∀ l ∈ lines, isSpaceLine l ∨ isMinusLine l ∨ isPlusLine l) ∧
  leadingSpaceCount lines ≤ 3 ∧ trailingSpaceCount lines ≤ 3 ∧
  ∃ l ∈ lines, ¬isSpaceLine l = true

/-- A well-formed hunk block: a `@@ -<oldStart>,<oldCount> +<newStart>,<newCount> @@`
header whose `oldCount` is the number of `-` and `' '` lines of the body and
whose `newCount` is the number of `+` and `' '` lines, followed by that body. -/
def GoodBlock (b : List GoStr) : Prop :=
  ∃ start lines, GoodHunkLines lines ∧
    b = hunkHeader start (hunkOldCount lines) (hunkNewCount lines) :: lines

/-- The number of indices `i < n` at which the old and new line lists differ
and the old line is non-empty (each should produce one `-` line). -/
def diffMinusTotal (el nl : List GoStr) (n : Nat) : Nat :=
  ((List.range n).filter fun i =>
    decide (el.getD i [] ≠ nl.getD i [] ∧ el.getD i [] ≠ [])).length

/-- The number of indices `i < n` at which the old and new line lists differ
and the new line is non-empty (each should produce one `+` line). -/
def diffPlusTotal (el nl : List GoStr) (n : Nat) : Nat :=
  ((List.range n).filter fun i =>
    decide (el.getD i [] ≠ nl.getD i [] ∧ nl.getD i [] ≠ [])).length

/-- A lowercase hexadecimal digit. -/
def isHexDigitChar (c : Char) : Bool :=
  decide (('0' ≤ c ∧ c ≤ '9') ∨ ('a' ≤ c ∧ c ≤ 'f'))

/-- "A string of exactly 7 hexadecimal digits". -/
def sevenHexDigits (s : GoStr) : Prop :=
  s.length = 7 ∧ ∀ c ∈ s, isHexDigitChar c = true

/-- The 13 characters whose codes are the base-31 digits of `2^63`: their
rolling hash is exactly `minInt64`. -/
def c9bad : GoStr := [11, 22, 0, 3, 18, 9, 5, 17, 18, 10, 4, 3, 8].map Char.ofNat

/-- The `(fullPath, payload)` pairs a list of leaf keys contributes to the
pull: fetch failures are skipped. -/
def leafResults {Payload : Type} (env : VaultEnv Payload) (cp : GoStr)
    (keys : List GoStr) : List (GoStr × Payload) :=
  keys.filterMap fun k =>
    match getSecret env.httpGet (walkerSecretPath cp k) with
    | .ok d => some (cp ++ gs "/" ++ k, d)
    | .error _ => none

/-- The warning lines a list of leaf keys contributes to the pull: one per
fetch failure. -/
def leafWarnings {Payload : Type} (env : VaultEnv Payload) (cp : GoStr)
    (keys : List GoStr) : List GoStr :=
  keys.filterMap fun k =>
    match getSecret env.httpGet (walkerSecretPath cp k) with
    | .ok _ => none
    | .error e => some (gs "Warning: Failed to get secret " ++ cp ++ gs "/" ++ k ++
        gs ": " ++ e)

/-- The warning lines the write phase of `PullSecretsToFiles` produces: one
per failed file write. -/
def writeWarnings {Payload : Type} (env : VaultEnv Payload)
    (basePath outputDir : GoStr) (secrets : List (GoStr × Payload)) : List GoStr :=
  secrets.filterMap fun sd =>
    match writeSecretToFileResult env sd.1 sd.2 basePath outputDir with
    | .error e => some (gs "Warning: Failed to write secret " ++ sd.1 ++ gs ": " ++ e)
    | .ok _ => none

/-- The loop invariant of `generateUnifiedDiff`'s main loop after processing
indices `0 .. n-1`: the emitted output is a concatenation of well-formed hunk
blocks; while inside a hunk the accumulated lines are marked, carry at most 3
leading and at most 2 trailing context lines, and contain a non-context
line; and the `-`/`+` lines produced so far are in bijection with the
differing indices whose old/new side is non-empty. -/
structure DiffInv (el nl : List GoStr) (n : Nat) (st : DiffState) : Prop where
  blocks : ∃ bs : List (List GoStr), st.out = bs.flatten ∧ ∀ b ∈ bs, GoodBlock b
  hunk : st.inHunk = true →
    (∀ l ∈ st.hunkLines, isSpaceLine l ∨ isMinusLine l ∨ isPlusLine l) ∧
    leadingSpaceCount st.hunkLines ≤ 3 ∧ trailingSpaceCount st.hunkLines ≤ 2 ∧
    ∃ l ∈ st.hunkLines, ¬isSpaceLine l = true
  minus : minusCount st.out + (if st.inHunk then minusCount st.hunkLines else 0)
    = diffMinusTotal el nl n
  plus : plusCount st.out + (if st.inHunk then plusCount st.hunkLines else 0)
    = diffPlusTotal el nl n

/-- A concrete pull environment: listing `kv/metadata` yields the leaves `a`
and `broken`, any other listing fails with `boom`; only the data path
`kv/data/a` is fetchable; every file write fails with `disk full`. -/
def c3envB : VaultEnv Unit :=
  ⟨fun p => if p = gs "kv/metadata" then .ok [gs "a", gs "broken"]
      else .error (gs "boom"),
   fun p => if p = gs "kv/data/a" then .ok () else .error (gs "HTTP 404"),
   fun _ _ => .error (gs "disk full")⟩

/-- A concrete pull environment whose root listing contains the folder
`sub/`, and whose nested listing fails with `boom`. -/
def c3envC : VaultEnv Unit :=
  ⟨fun p => if p = gs "kv/metadata" then .ok [gs "a", gs "sub/"]
      else .error (gs "boom"),
   fun p => if p = gs "kv/data/a" then .ok () else .error (gs "HTTP 404"),
   fun _ _ => .ok ()⟩

/-- A concrete push environment: both local files read and decode fine, but
the remote write for `kv/metadata/a` fails with `HTTP 500`. -/
def c6env : PushEnv Unit :=
  ⟨fun p => if p = gs "in/a.yaml" ∨ p = gs "in/b.yaml" then .ok (gs "x")
      else .error (gs "io"),
   fun _ => .ok (),
   fun p _ => if p = gs "kv/metadata/a" then .error (gs "HTTP 500") else .ok ()⟩

/-! ## Lemmas about the string model -/

theorem goSplit_ne_nil (sep : Char) (s : GoStr) : goSplit sep s ≠ [] :=
  List.splitOnP_ne_nil _ s

theorem goSplit_sepFree {sep : Char} {s : GoStr} (h : sep ∉ s) :
    goSplit sep s = [s] := by
  refine List.splitOnP_eq_single _ _ ?_
  intro x hx
  simp only [beq_iff_eq]
  exact fun hxs => h (hxs ▸ hx)

theorem goSplit_append {sep : Char} {a : GoStr} (h : sep ∉ a) (b : GoStr) :
    goSplit sep (a ++ sep :: b) = a :: goSplit sep b := by
  refine List.splitOnP_first _ a ?_ sep (by simp) b
  intro x hx
  simp only [beq_iff_eq]
  exact fun hxs => h (hxs ▸ hx)

theorem goSplit_sep_not_mem (sep : Char) (s : GoStr) :
    ∀ x ∈ goSplit sep s, sep ∉ x := by
  induction s with
  | nil =>
    intro x hx
    simp only [goSplit, List.splitOn, List.splitOnP_nil, List.mem_singleton] at hx
    simp [hx]
  | cons c cs ih =>
    intro x hx
    simp only [goSplit, List.splitOn, List.splitOnP_cons] at hx ih
    by_cases hc : c = sep
    · rw [if_pos (by simp [hc])] at hx
      rcases List.mem_cons.mp hx with h1 | h1
      · simp [h1]
      · exact ih x h1
    · rw [if_neg (by simp [hc])] at hx
      rcases hr : List.splitOnP (· == sep) cs with _ | ⟨r, rs⟩
      · exact absurd hr (List.splitOnP_ne_nil _ cs)
      · rw [hr] at hx
        simp only [List.modifyHead, List.mem_cons] at hx
        rcases hx with h1 | h1
        · subst h1
          intro hmem
          rcases List.mem_cons.mp hmem with h2 | h2
          · exact hc h2.symm
          · exact ih r (by rw [hr]; exact List.mem_cons_self r rs) h2
        · exact ih x (by rw [hr]; exact List.mem_cons_of_mem r h1)

theorem goJoin_nil (sep : Char) : goJoin sep [] = [] := rfl

theorem goJoin_single (sep : Char) (x : GoStr) : goJoin sep [x] = x := by
  simp [goJoin, List.intercalate]

theorem goJoin_cons (sep : Char) (x y : GoStr) (r : List GoStr) :
    goJoin sep (x :: y :: r) = x ++ sep :: goJoin sep (y :: r) := by
  simp [goJoin, List.intercalate, List.intersperse_cons_cons]

theorem goJoin_goSplit (sep : Char) (s : GoStr) : goJoin sep (goSplit sep s) = s :=
  List.intercalate_splitOn s sep

theorem goTrimPre_append (pre b : GoStr) : goTrimPre pre (pre ++ b) = b := by
  rw [goTrimPre, if_pos (List.isPrefixOf_iff_prefix.mpr (List.prefix_append pre b)),
    List.drop_left]

theorem goTrimSuf_append (a suf : GoStr) : goTrimSuf suf (a ++ suf) = a := by
  rw [goTrimSuf, if_pos (List.isSuffixOf_iff_suffix.mpr (List.suffix_append a suf)),
    List.length_append, Nat.add_sub_cancel, List.take_left]

theorem filepathRel_append (base b : GoStr) :
    filepathRel base (base ++ '/' :: b) = some b := by
  have h1 : base ++ '/' :: b = (base ++ ['/']) ++ b := by simp
  rw [filepathRel, h1,
    if_pos (List.isPrefixOf_iff_prefix.mpr (List.prefix_append (base ++ ['/']) b)),
    List.drop_left' (by simp)]

/-- The walker's hardcoded byte test `currentPath[:11] == "kv/metadata"`
holds on a path of the form `<engine>/metadata...` exactly when the engine is
literally `kv`. -/
theorem walkerTest_iff {engine : GoStr} (he : '/' ∉ engine) (tail : GoStr) :
    (11 ≤ (engine ++ gs "/metadata" ++ tail).length ∧
      (engine ++ gs "/metadata" ++ tail).take 11 = gs "kv/metadata")
      ↔ engine = gs "kv" := by
  constructor
  · rintro ⟨-, htake⟩
    match engine, he with
    | [], he => simp [gs, List.take_succ_cons] at htake
    | [a], he => simp [gs, List.take_succ_cons] at htake
    | [a, b], he =>
      simp only [gs, List.cons_append, List.nil_append, List.take_succ_cons] at htake
      simp only [List.cons.injEq] at htake
      simp [gs, htake.1, htake.2.1]
    | a :: b :: c :: es, he =>
      simp only [gs, List.cons_append, List.take_succ_cons] at htake
      simp only [List.cons.injEq] at htake
      exact absurd htake.2.2.1 (by simp at he; intro hc; exact he.2.2.1 hc.symm)
  · rintro rfl
    have hform : gs "kv" ++ gs "/metadata" ++ tail = gs "kv/metadata" ++ tail := rfl
    rw [hform]
    constructor
    · rw [List.length_append]
      have : (gs "kv/metadata").length = 11 := rfl
      omega
    · exact List.take_left' rfl

/-- `toDataPath` on a path `<engine>/metadata/<tail>`: segment 1 is
`metadata`, so it is rewritten to `<engine>/data/<tail>`. -/
theorem toDataPath_metadata (engine : GoStr) (he : '/' ∉ engine) (tail : GoStr) :
    toDataPath (engine ++ gs "/metadata" ++ '/' :: tail) = engine ++ gs "/data/" ++ tail := by
  have hform : engine ++ gs "/metadata" ++ '/' :: tail
      = engine ++ '/' :: (gs "metadata" ++ '/' :: tail) := by simp [gs]
  have hsplit : goSplit '/' (engine ++ gs "/metadata" ++ '/' :: tail)
      = engine :: gs "metadata" :: goSplit '/' tail := by
    rw [hform, goSplit_append he, goSplit_append (by decide)]
  rw [toDataPath, hsplit]
  simp [goJoin_goSplit]

/-- `toDataPath` on the bare two-segment path `<engine>/metadata`: the Go
code appends `"/data/"` and the empty join, leaving a trailing slash. -/
theorem toDataPath_metadata_nil (engine : GoStr) (he : '/' ∉ engine) :
    toDataPath (engine ++ gs "/metadata") = engine ++ gs "/data/" := by
  have hform : engine ++ gs "/metadata" = engine ++ '/' :: gs "metadata" := rfl
  have hsplit : goSplit '/' (engine ++ gs "/metadata")
      = engine :: [gs "metadata"] := by
    rw [hform, goSplit_append he, goSplit_sepFree (by decide)]
  rw [toDataPath, hsplit]
  simp [goJoin_nil]

/-- `toDataPath` leaves a path `<engine>/data/<tail>` unchanged. -/
theorem toDataPath_data (engine : GoStr) (he : '/' ∉ engine) (tail : GoStr) :
    toDataPath (engine ++ gs "/data/" ++ tail) = engine ++ gs "/data/" ++ tail := by
  have hform : engine ++ gs "/data/" ++ tail
      = engine ++ '/' :: (gs "data" ++ '/' :: tail) := by simp [gs]
  have hsplit : goSplit '/' (engine ++ gs "/data/" ++ tail)
      = engine :: gs "data" :: goSplit '/' tail := by
    rw [hform, goSplit_append he, goSplit_append (by decide)]
  rw [toDataPath, hsplit]
  have hne : gs "data" ≠ gs "metadata" := by decide
  simp [hne]

/-- Segment-1 substitution on a path `<engine>/metadata/<tail>` yields
`<engine>/data/<tail>`. -/
theorem segSubstData_metadata (engine : GoStr) (he : '/' ∉ engine) (tail : GoStr) :
    segSubstData (engine ++ gs "/metadata" ++ '/' :: tail)
      = engine ++ gs "/data/" ++ tail := by
  have hform : engine ++ gs "/metadata" ++ '/' :: tail
      = engine ++ '/' :: (gs "metadata" ++ '/' :: tail) := by simp [gs]
  have hsplit : goSplit '/' (engine ++ gs "/metadata" ++ '/' :: tail)
      = engine :: gs "metadata" :: goSplit '/' tail := by
    rw [hform, goSplit_append he, goSplit_append (by decide)]
  rw [segSubstData, hsplit]
  rcases hr : goSplit '/' tail with _ | ⟨r, rs⟩
  · exact absurd hr (goSplit_ne_nil '/' tail)
  · have hset : (engine :: gs "metadata" :: r :: rs).set 1 (gs "data")
        = engine :: gs "data" :: r :: rs := rfl
    rw [hset, goJoin_cons, goJoin_cons]
    have : goJoin '/' (r :: rs) = tail := by rw [← hr, goJoin_goSplit]
    rw [this]
    simp [gs]

/-! ## Claim C4: metadata-to-data translation -/

/-- **C4, counterexample.**  On the two-segment path `kv/metadata` the
conversion yields `kv/data/` (a trailing slash from appending `"/data/"` and
the empty join of `parts[2:]`), not the claimed segment-1 replacement
`kv/data`; so the claim fails at this input. -/
theorem toDataPath_two_segment_counterexample :
    toDataPath (gs "kv/metadata") = gs "kv/data/" ∧
    goJoin '/' ((goSplit '/' (gs "kv/metadata")).set 1 (gs "data")) = gs "kv/data" ∧
    toDataPath (gs "kv/metadata")
      ≠ goJoin '/' ((goSplit '/' (gs "kv/metadata")).set 1 (gs "data")) := by
  refine ⟨by decide, by decide, by decide⟩

/-- **C4, amended.**  The conversion applied by `GetSecret` and `PutSecret`
splits on `/`; with at least 3 segments and segment 1 `"metadata"`, the
result replaces segment 1 by `"data"` and keeps all other segments; with
exactly 2 segments and segment 1 `"metadata"`, the result is segment 0
followed by `"/data/"` (a trailing empty segment appears); otherwise the
input is returned unchanged.  In every case applying the conversion twice
equals applying it once. -/
theorem metadata_to_data_translation (p : GoStr) :
    (3 ≤ (goSplit '/' p).length → (goSplit '/' p).getD 1 [] = gs "metadata" →
      toDataPath p = goJoin '/' ((goSplit '/' p).set 1 (gs "data"))) ∧
    ((goSplit '/' p).length = 2 → (goSplit '/' p).getD 1 [] = gs "metadata" →
      toDataPath p = (goSplit '/' p).getD 0 [] ++ gs "/data/") ∧
    ((goSplit '/' p).length < 2 ∨ (goSplit '/' p).getD 1 [] ≠ gs "metadata" →
      toDataPath p = p) ∧
    toDataPath (toDataPath p) = toDataPath p := by
  rcases hsplit : goSplit '/' p with _ | ⟨p0, _ | ⟨p1, rest⟩⟩
  · exact absurd hsplit (goSplit_ne_nil '/' p)
  · -- one segment: the conversion is the identity, and so is its square
    have hid : toDataPath p = p := by rw [toDataPath, hsplit]
    refine ⟨?_, ?_, fun _ => hid, by rw [hid, hid]⟩
    · intro hlen _; simp at hlen
    · intro hlen; simp at hlen
  · have hp0 : '/' ∉ p0 :=
      goSplit_sep_not_mem '/' p p0 (hsplit ▸ List.mem_cons_self _ _)
    by_cases hmeta : p1 = gs "metadata"
    · subst hmeta
      have hval : toDataPath p = p0 ++ gs "/data/" ++ goJoin '/' rest := by
        rw [toDataPath, hsplit]; simp
      have hsq : toDataPath (toDataPath p) = toDataPath p := by
        rw [hval, toDataPath_data p0 hp0 (goJoin '/' rest), ← hval]
      refine ⟨?_, ?_, ?_, hsq⟩
      · intro hlen _
        rcases rest with _ | ⟨r, rs⟩
        · simp at hlen
        · rw [hval]
          have hset : (p0 :: gs "metadata" :: r :: rs).set 1 (gs "data")
              = p0 :: gs "data" :: r :: rs := rfl
          rw [hset, goJoin_cons, goJoin_cons]
          simp [gs]
      · intro hlen _
        have hrest : rest = [] := by
          rcases rest with _ | _
          · rfl
          · simp at hlen
        subst hrest
        rw [hval, goJoin_nil, List.append_nil]
        rfl
      · intro hcase
        rcases hcase with hlen | hne
        · simp at hlen; omega
        · exact absurd rfl hne
    · have hid : toDataPath p = p := by
        rw [toDataPath, hsplit]
        simp [hmeta]
      refine ⟨?_, ?_, fun _ => hid, by rw [hid, hid]⟩
      · intro _ hseg
        exact absurd hseg hmeta
      · intro _ hseg
        exact absurd hseg hmeta

/-- **C4, witness** for the amended theorem at `kv/metadata/app/db` (and its
passthrough case at `kv/data/x`). -/
theorem metadata_to_data_translation_witness :
    (toDataPath (gs "kv/metadata/app/db")
      = goJoin '/' ((goSplit '/' (gs "kv/metadata/app/db")).set 1 (gs "data"))) ∧
    (toDataPath (gs "kv/metadata")
      = (goSplit '/' (gs "kv/metadata")).getD 0 [] ++ gs "/data/") ∧
    (toDataPath (gs "kv/data/x") = gs "kv/data/x") ∧
    toDataPath (toDataPath (gs "kv/metadata/app/db"))
      = toDataPath (gs "kv/metadata/app/db") :=
  ⟨(metadata_to_data_translation (gs "kv/metadata/app/db")).1 (by decide) (by decide),
   (metadata_to_data_translation (gs "kv/metadata")).2.1 (by decide) (by decide),
   (metadata_to_data_translation (gs "kv/data/x")).2.2.1 (Or.inr (by decide)),
   (metadata_to_data_translation (gs "kv/metadata/app/db")).2.2.2⟩

/-! ## Claim C5: walker rewrite equivalence -/

/-- **C5.**  For every traversal path of the form `<engine>/metadata[/more]`
(the engine name containing no `/`) and every non-folder key listed there,
the data path the walker's leaf fetch ultimately uses — the hardcoded
`kv/metadata` prefix rewrite when it applies, else `GetSecret`'s own
conversion — equals `currentPath + "/" + key` with segment 1 (`metadata`)
replaced by `data`, for every engine name and nesting depth. -/
theorem walker_rewrite_equivalence (engine rest key : GoStr) (he : '/' ∉ engine)
    (hrest : rest = [] ∨ ∃ m, rest = '/' :: m)
    (hkey : key ≠ []) (hkeyNf : key.getLast? ≠ some '/') :
    walkerFetchDataPath (engine ++ gs "/metadata" ++ rest) key
      = segSubstData (engine ++ gs "/metadata" ++ rest ++ gs "/" ++ key) := by
  have hassoc : ∀ T : GoStr, engine ++ gs "/metadata" ++ rest ++ gs "/" ++ key
      = engine ++ gs "/metadata" ++ '/' :: T →
      segSubstData (engine ++ gs "/metadata" ++ rest ++ gs "/" ++ key)
        = engine ++ gs "/data/" ++ T := by
    intro T hT
    rw [hT, segSubstData_metadata engine he T]
  rw [walkerFetchDataPath, walkerSecretPath]
  by_cases heng : engine = gs "kv"
  · subst heng
    rw [if_pos ((walkerTest_iff (by decide) rest).mpr rfl)]
    have hdrop : (gs "kv" ++ gs "/metadata" ++ rest).drop 11 = rest := by
      have hform : gs "kv" ++ gs "/metadata" ++ rest = gs "kv/metadata" ++ rest := rfl
      rw [hform]
      exact List.drop_left' (by decide)
    rw [hdrop]
    rcases hrest with rfl | ⟨m, rfl⟩
    · rw [hassoc key (by simp [gs])]
      have hnoop : gs "kv/data" ++ [] ++ gs "/" ++ key
          = gs "kv" ++ gs "/data/" ++ key := by simp [gs]
      rw [hnoop, toDataPath_data (gs "kv") (by decide) key]
    · rw [hassoc (m ++ '/' :: key) (by simp [gs])]
      have hnoop : gs "kv/data" ++ '/' :: m ++ gs "/" ++ key
          = gs "kv" ++ gs "/data/" ++ (m ++ '/' :: key) := by simp [gs]
      rw [hnoop, toDataPath_data (gs "kv") (by decide) (m ++ '/' :: key)]
  · rw [if_neg (fun hc => heng ((walkerTest_iff he rest).mp hc))]
    rcases hrest with rfl | ⟨m, rfl⟩
    · rw [hassoc key (by simp [gs])]
      have hform : engine ++ gs "/metadata" ++ [] ++ gs "/" ++ key
          = engine ++ gs "/metadata" ++ '/' :: key := by simp [gs]
      rw [hform, toDataPath_metadata engine he key]
    · rw [hassoc (m ++ '/' :: key) (by simp [gs])]
      have hform : engine ++ gs "/metadata" ++ '/' :: m ++ gs "/" ++ key
          = engine ++ gs "/metadata" ++ '/' :: (m ++ '/' :: key) := by simp [gs]
      rw [hform, toDataPath_metadata engine he (m ++ '/' :: key)]

/-- **C5, witness** at a non-`kv` engine two levels deep and at the `kv`
engine itself. -/
theorem walker_rewrite_equivalence_witness :
    walkerFetchDataPath (gs "secret" ++ gs "/metadata" ++ gs "/app/team") (gs "db")
      = segSubstData (gs "secret" ++ gs "/metadata" ++ gs "/app/team" ++ gs "/" ++ gs "db") ∧
    walkerFetchDataPath (gs "kv" ++ gs "/metadata" ++ gs "/app") (gs "db")
      = segSubstData (gs "kv" ++ gs "/metadata" ++ gs "/app" ++ gs "/" ++ gs "db") :=
  ⟨walker_rewrite_equivalence (gs "secret") (gs "/app/team") (gs "db") (by decide)
      (Or.inr ⟨gs "app/team", by decide⟩) (by decide) (by decide),
   walker_rewrite_equivalence (gs "kv") (gs "/app") (gs "db") (by decide)
      (Or.inr ⟨gs "app", by decide⟩) (by decide) (by decide)⟩

/-! ## Claim C1: path round-trip -/

/-- **C1.**  For every metadata base path `<engine>/metadata[/subpath]` (the
engine a single segment, any non-empty subpath), every base directory and
every non-empty leaf suffix: mapping the remote secret path
`base ++ "/" ++ leaf` to its local file (as `writeSecretToFile` does) and
mapping that file back (as `PushSecretsFromFiles` does, with the same
directory as input) recovers the original remote secret path. -/
theorem path_round_trip (engine rest leaf dir : GoStr) (he : '/' ∉ engine)
    (hrest : rest = [] ∨ ∃ m, m ≠ [] ∧ rest = '/' :: m) (hleaf : leaf ≠ []) :
    ∃ fp, writeSecretFilePath (engine ++ gs "/metadata" ++ rest ++ gs "/" ++ leaf)
        (engine ++ gs "/metadata" ++ rest) dir = .ok fp ∧
      pushFileToVaultPath dir (engine ++ gs "/metadata" ++ rest) fp
        = some (engine ++ gs "/metadata" ++ rest ++ gs "/" ++ leaf) := by
  have hrel : goTrimPre (gs "/")
      (goTrimPre (engine ++ gs "/metadata" ++ rest)
        (engine ++ gs "/metadata" ++ rest ++ gs "/" ++ leaf)) = leaf := by
    have h1 : engine ++ gs "/metadata" ++ rest ++ gs "/" ++ leaf
        = (engine ++ gs "/metadata" ++ rest) ++ ('/' :: leaf) := by simp [gs]
    rw [h1, goTrimPre_append]
    have h2 : ('/' :: leaf : GoStr) = gs "/" ++ leaf := rfl
    rw [h2, goTrimPre_append]
  rcases hrest with rfl | ⟨m, hm, rfl⟩
  · -- no subpath: metadataPath = engine/metadata
    have hsplit : goSplit '/' (engine ++ gs "/metadata")
        = [engine, gs "metadata"] := by
      have hform : engine ++ gs "/metadata" = engine ++ '/' :: gs "metadata" := rfl
      rw [hform, goSplit_append he, goSplit_sepFree (by decide)]
    refine ⟨filepathJoin dir (leaf ++ gs ".yaml"), ?_, ?_⟩
    · rw [writeSecretFilePath]
      simp only [List.append_nil] at hrel ⊢
      rw [hrel, if_neg hleaf, hsplit]
      simp
    · simp only [List.append_nil]
      rw [pushFileToVaultPath, hsplit]
      have h1 : filepathRel dir (filepathJoin dir (leaf ++ gs ".yaml"))
          = some (leaf ++ gs ".yaml") := filepathRel_append dir (leaf ++ gs ".yaml")
      simp only [gs] at h1
      simp [h1, goJoin_nil, goTrimSuf_append, gs]
  · -- subpath m: metadataPath = engine/metadata/m
    have hsplit : goSplit '/' (engine ++ gs "/metadata" ++ '/' :: m)
        = engine :: gs "metadata" :: goSplit '/' m := by
      have hform : engine ++ gs "/metadata" ++ '/' :: m
          = engine ++ '/' :: (gs "metadata" ++ '/' :: m) := by simp [gs]
      rw [hform, goSplit_append he, goSplit_append (by decide)]
    rcases hms : goSplit '/' m with _ | ⟨r, rs⟩
    · exact absurd hms (goSplit_ne_nil '/' m)
    have hjm : goJoin '/' (r :: rs) = m := by rw [← hms, goJoin_goSplit]
    refine ⟨filepathJoin (filepathJoin dir m) (leaf ++ gs ".yaml"), ?_, ?_⟩
    · rw [writeSecretFilePath]
      simp only at hrel
      rw [hrel, if_neg hleaf, hsplit, hms]
      simp only [List.length_cons, List.drop_succ_cons, List.drop_zero]
      rw [if_pos (by simp), hjm]
    · rw [pushFileToVaultPath, hsplit, hms]
      have h1 : filepathRel (filepathJoin dir m)
          (filepathJoin (filepathJoin dir m) (leaf ++ gs ".yaml"))
          = some (leaf ++ gs ".yaml") :=
        filepathRel_append (filepathJoin dir m) (leaf ++ gs ".yaml")
      simp only [gs] at h1
      simp [hjm, h1, goTrimSuf_append, hm, gs]

/-- **C1, witness** at engine `kv`, subpath `app`, leaf `db`, directory
`out`, and at the same engine with no subpath. -/
theorem path_round_trip_witness :
    (∃ fp, writeSecretFilePath (gs "kv" ++ gs "/metadata" ++ gs "/app" ++ gs "/" ++ gs "db")
        (gs "kv" ++ gs "/metadata" ++ gs "/app") (gs "out") = .ok fp ∧
      pushFileToVaultPath (gs "out") (gs "kv" ++ gs "/metadata" ++ gs "/app") fp
        = some (gs "kv" ++ gs "/metadata" ++ gs "/app" ++ gs "/" ++ gs "db")) ∧
    (∃ fp, writeSecretFilePath (gs "kv" ++ gs "/metadata" ++ [] ++ gs "/" ++ gs "db")
        (gs "kv" ++ gs "/metadata" ++ []) (gs "out") = .ok fp ∧
      pushFileToVaultPath (gs "out") (gs "kv" ++ gs "/metadata" ++ []) fp
        = some (gs "kv" ++ gs "/metadata" ++ [] ++ gs "/" ++ gs "db")) :=
  ⟨path_round_trip (gs "kv") (gs "/app") (gs "db") (gs "out") (by decide)
      (Or.inr ⟨gs "app", by decide, by decide⟩) (by decide),
   path_round_trip (gs "kv") [] (gs "db") (gs "out") (by decide)
      (Or.inl rfl) (by decide)⟩

/-! ## Claim C2: diff idempotence -/

/-- **C2.**  Diffing any payload against itself renders empty text and is
reported as unchanged (`generateUnifiedDiff` returns its empty no-change
result), and the dry-run path prints nothing for it: with the existing
fetch succeeding on the same payload, `showDryRunDiff` hands nothing to the
output sink. -/
theorem diff_idempotence {Payload : Type} (marshal : Payload → GoStr)
    (x : Payload) (y label : GoStr) :
    generateUnifiedDiff y y label = [] ∧
    showDryRunDiffOutput marshal (.ok x) x label = none := by
  refine ⟨by rw [generateUnifiedDiff, if_pos rfl], ?_⟩
  simp [showDryRunDiffOutput, generateUnifiedDiff]

/-! ## Claim C7: new-secret diff -/

/-- `renderLines` of a non-empty line list is non-empty. -/
theorem renderLines_ne_nil (a : GoStr) (rest : List GoStr) :
    renderLines (a :: rest) ≠ [] := by
  simp [renderLines]

/-- **C7.**  When the `GetSecret` fetch fails (the secret is absent
remotely), the dry-run diff for new payload `n` with label `p` is exactly the
five header lines `diff --git a/p b/p`, `new file mode 100644`,
`index 0000000..<hash>`, `--- /dev/null`, `+++ b/p`, followed by every line
of the encoded payload prefixed with `+` (the encoder's output always ends
with a newline, the stated hypothesis); in particular its `---` line is
`/dev/null`, never real content. -/
theorem new_secret_diff {Payload : Type} (marshal : Payload → GoStr)
    (e : GoStr) (n : Payload) (p : GoStr)
    (hnl : goHasSuf (gs "\n") (marshal n) = true) :
    showDryRunDiffOutput marshal (.error e) n p
      = some (renderLines (
          [gs "diff --git a/" ++ p ++ gs " b/" ++ p,
           gs "new file mode 100644",
           gs "index 0000000.." ++ generateShortHash (marshal n),
           gs "--- /dev/null",
           gs "+++ b/" ++ p] ++
          (goSplit '\n' (marshal n)).map ('+' :: ·))) := by
  have hfm : newFileDiffLines p (marshal n)
      = [gs "diff --git a/" ++ p ++ gs " b/" ++ p,
         gs "new file mode 100644",
         gs "index 0000000.." ++ generateShortHash (marshal n),
         gs "--- /dev/null",
         gs "+++ b/" ++ p] ++
        (goSplit '\n' (marshal n)).map ('+' :: ·) := by
    rw [newFileDiffLines]
    congr 1
    have hcond : (goSplit '\n' (marshal n)).filterMap (fun line =>
        if line ≠ [] ∨ goHasSuf (gs "\n") (marshal n) then some ('+' :: line)
        else none)
        = (goSplit '\n' (marshal n)).filterMap (fun line => some ('+' :: line)) := by
      simp [hnl]
    rw [hcond]
    exact congrFun (List.filterMap_eq_map fun x => '+' :: x) (goSplit '\n' (marshal n))
  rw [showDryRunDiffOutput]
  simp only [hfm]
  rw [if_neg (by exact renderLines_ne_nil _ _)]

/-- **C7, witness** for the encoded payload `a: 1\n` at label `p/x`. -/
theorem new_secret_diff_witness :
    goHasSuf (gs "\n") (gs "a: 1\n") = true ∧
    showDryRunDiffOutput (fun y : GoStr => y) (.error (gs "HTTP 404")) (gs "a: 1\n")
        (gs "p/x")
      = some (renderLines (
          [gs "diff --git a/" ++ gs "p/x" ++ gs " b/" ++ gs "p/x",
           gs "new file mode 100644",
           gs "index 0000000.." ++ generateShortHash (gs "a: 1\n"),
           gs "--- /dev/null",
           gs "+++ b/" ++ gs "p/x"] ++
          (goSplit '\n' (gs "a: 1\n")).map ('+' :: ·))) :=
  ⟨by decide, new_secret_diff (fun y : GoStr => y) (gs "HTTP 404") (gs "a: 1\n")
      (gs "p/x") (by decide)⟩

/-! ## Claim C9: short hash -/

/-- `wrap64` always lands in the `int64` range. -/
theorem wrap64_range (x : Int) : -(2 ^ 63) ≤ wrap64 x ∧ wrap64 x < 2 ^ 63 := by
  have h1 : 0 ≤ (x + 2 ^ 63) % 2 ^ 64 := Int.emod_nonneg _ (by norm_num)
  have h2 : (x + 2 ^ 63) % 2 ^ 64 < 2 ^ 64 := Int.emod_lt_of_pos _ (by norm_num)
  have h3 : (2 : Int) ^ 64 = 2 * 2 ^ 63 := by ring
  rw [wrap64]
  constructor <;> linarith

/-- `wrap64` is the identity on the `int64` range. -/
theorem wrap64_eq_self {x : Int} (h1 : -(2 ^ 63) ≤ x) (h2 : x < 2 ^ 63) :
    wrap64 x = x := by
  have h3 : (2 : Int) ^ 64 = 2 * 2 ^ 63 := by ring
  rw [wrap64, Int.emod_eq_of_lt (by linarith) (by linarith)]
  ring

/-- The rolling hash always lands in the `int64` range. -/
theorem rollingHash_range (s : GoStr) :
    -(2 ^ 63) ≤ rollingHash s ∧ rollingHash s < 2 ^ 63 := by
  rw [rollingHash]
  have key : ∀ (t : GoStr) (h : Int), -(2 ^ 63) ≤ h → h < 2 ^ 63 →
      -(2 ^ 63) ≤ t.foldl hashStep h ∧ t.foldl hashStep h < 2 ^ 63 := by
    intro t
    induction t with
    | nil => intro h hlo hhi; exact ⟨hlo, hhi⟩
    | cons c cs ih =>
      intro h _ _
      have := wrap64_range (h * 31 + (c.toNat : Int))
      exact ih _ this.1 this.2
  exact key s 0 (by norm_num) (by norm_num)

/-- Every character `natToHexCore` emits is a lowercase hex digit. -/
theorem natToHexCore_hex : ∀ (fuel n : Nat), ∀ c ∈ natToHexCore fuel n,
    isHexDigitChar c = true := by
  have hdigit : ∀ d : Nat, d < 16 → isHexDigitChar (hexDigitChar d) = true := by
    decide
  intro fuel
  induction fuel with
  | zero => intro n c hc; simp [natToHexCore] at hc
  | succ f ih =>
    intro n c hc
    rw [natToHexCore] at hc
    by_cases h16 : n < 16
    · rw [if_pos h16] at hc
      simp only [List.mem_singleton] at hc
      exact hc ▸ hdigit n h16
    · rw [if_neg h16] at hc
      rcases List.mem_append.mp hc with h1 | h1
      · exact ih (n / 16) c h1
      · simp only [List.mem_singleton] at h1
        exact h1 ▸ hdigit (n % 16) (Nat.mod_lt n (by norm_num))

/-- With adequate fuel, a number below `16 ^ k` has at most `k` hex digits. -/
theorem natToHexCore_length : ∀ (fuel n k : Nat), n ≤ fuel → 1 ≤ k →
    n < 16 ^ k → (natToHexCore (fuel + 1) n).length ≤ k := by
  intro fuel
  induction fuel with
  | zero =>
    intro n k hn hk _
    interval_cases n
    simp [natToHexCore, hk]
  | succ f ih =>
    intro n k hn hk hpow
    rw [natToHexCore]
    by_cases h16 : n < 16
    · rw [if_pos h16]; simpa using hk
    · rw [if_neg h16]
      have hk2 : 2 ≤ k := by
        by_contra hlt
        have hk1 : k = 1 := by omega
        rw [hk1] at hpow
        simp at hpow
        omega
      have hdiv : n / 16 ≤ f := by
        have : 16 ≤ n := Nat.le_of_not_lt h16
        have h1 : n / 16 < n := Nat.div_lt_self (by omega) (by norm_num)
        omega
      have hdivpow : n / 16 < 16 ^ (k - 1) := by
        have h1 : n < 16 ^ k := hpow
        have h2 : 16 ^ k = 16 ^ (k - 1) * 16 := by
          rw [← pow_succ]
          congr 1
          omega
        rw [h2] at h1
        exact Nat.div_lt_of_lt_mul (by linarith [h1])
      have := ih (n / 16) (k - 1) hdiv (by omega) hdivpow
      rw [List.length_append, List.length_singleton]
      omega

/-- A non-negative value below `16 ^ 7` formats under `%07x` as exactly 7
hex digits. -/
theorem sevenHex_fmt07x {x : Int} (h0 : 0 ≤ x) (h7 : x < 16 ^ 7) :
    sevenHexDigits (fmt07x x) := by
  rw [fmt07x, if_neg (by omega)]
  have hlen : (natToHex x.toNat).length ≤ 7 := by
    rw [natToHex]
    refine natToHexCore_length x.toNat x.toNat 7 le_rfl (by norm_num) ?_
    have : (16 : Int) ^ 7 = ((16 ^ 7 : Nat) : Int) := by norm_num
    omega
  constructor
  · rw [padZero, List.length_append, List.length_replicate]
    omega
  · intro c hc
    rw [padZero] at hc
    rcases List.mem_append.mp hc with h1 | h1
    · rw [List.eq_of_mem_replicate h1]
      decide
    · exact natToHexCore_hex _ _ c h1

set_option maxRecDepth 100000 in
/-- **C9, counterexample.**  The 13-character string whose codes are the
base-31 digits of `2^63` drives the rolling hash to exactly `minInt64`; the
wrap-around negation leaves it negative, and the formatted result is
`-000080` — 7 characters, but not 7 hexadecimal digits.  So the claim's
"exactly 7 hexadecimal digits for every input" is false. -/
theorem short_hash_counterexample :
    generateShortHash c9bad = gs "-000080" ∧
    ¬sevenHexDigits (generateShortHash c9bad) := by
  constructor
  · decide
  · unfold sevenHexDigits
    decide

/-- **C9, amended.**  `generateShortHash` is a deterministic function of its
input (equal inputs give equal outputs, computed by the wrap-around rolling
hash), and its result is a string of exactly 7 hexadecimal digits for every
input whose rolling hash is not exactly `-2^63`; in that one remaining case
(where Go's `-hash` negation overflows back to `minInt64`) the result is the
7-character string `-000080`. -/
theorem short_hash_deterministic_seven_hex (s t : GoStr) :
    (s = t → generateShortHash s = generateShortHash t) ∧
    (rollingHash s ≠ -(2 ^ 63) → sevenHexDigits (generateShortHash s)) ∧
    (rollingHash s = -(2 ^ 63) → generateShortHash s = gs "-000080") := by
  refine ⟨fun h => h ▸ rfl, ?_, ?_⟩
  · intro hne
    obtain ⟨hlo, hhi⟩ := rollingHash_range s
    rw [generateShortHash]
    by_cases hneg : rollingHash s < 0
    · rw [if_pos hneg]
      have hself : wrap64 (-rollingHash s) = -rollingHash s := by
        refine wrap64_eq_self (by linarith) ?_
        have : -(2 ^ 63) < rollingHash s := lt_of_le_of_ne hlo (Ne.symm hne)
        linarith
      rw [hself, goRem, if_pos (by linarith)]
      refine sevenHex_fmt07x (Int.emod_nonneg _ (by norm_num)) ?_
      have := Int.emod_lt_of_pos (-rollingHash s) (by norm_num : (0 : Int) < 0xfffffff)
      calc -rollingHash s % 0xfffffff < 0xfffffff := this
        _ < 16 ^ 7 := by norm_num
    · rw [if_neg hneg]
      rw [goRem, if_pos (by omega)]
      refine sevenHex_fmt07x (Int.emod_nonneg _ (by norm_num)) ?_
      have := Int.emod_lt_of_pos (rollingHash s) (by norm_num : (0 : Int) < 0xfffffff)
      calc rollingHash s % 0xfffffff < 0xfffffff := this
        _ < 16 ^ 7 := by norm_num
  · intro hmin
    rw [generateShortHash, hmin]
    decide

set_option maxRecDepth 100000 in
/-- **C9, witness** for the amended theorem: the hex case at `abc`, the
overflow case at the counterexample string. -/
theorem short_hash_witness :
    sevenHexDigits (generateShortHash (gs "abc")) ∧
    generateShortHash c9bad = gs "-000080" ∧
    generateShortHash (gs "abc") = generateShortHash (gs "abc") :=
  ⟨(short_hash_deterministic_seven_hex (gs "abc") (gs "abc")).2.1 (by decide),
   (short_hash_deterministic_seven_hex c9bad c9bad).2.2 (by decide),
   (short_hash_deterministic_seven_hex (gs "abc") (gs "abc")).1 rfl⟩

/-! ## Claim C3: pull failure policy -/

/-- The key loop over leaf-only keys: every fetch failure becomes one warning
and is skipped, every success is accumulated, and the loop returns no error. -/
theorem pullKeysLoop_leaves {Payload : Type} (env : VaultEnv Payload) (fuel : Nat)
    (cp : GoStr) (keys : List GoStr) (hkeys : ∀ k ∈ keys, k.getLast? ≠ some '/') :
    ∀ secrets warnings, pullKeysLoop env fuel cp keys secrets warnings
      = ⟨secrets ++ leafResults env cp keys,
         warnings ++ leafWarnings env cp keys, none⟩ := by
  induction keys with
  | nil =>
    intro s w
    simp [pullKeysLoop, leafResults, leafWarnings]
  | cons k rest ih =>
    intro s w
    rw [pullKeysLoop, if_neg (hkeys k (List.mem_cons_self k rest))]
    rcases hg : getSecret env.httpGet (walkerSecretPath cp k) with e | d
    · simp only [ih (fun x hx => hkeys x (List.mem_cons_of_mem k hx))]
      simp [leafResults, leafWarnings, hg]
    · simp only [ih (fun x hx => hkeys x (List.mem_cons_of_mem k hx))]
      simp [leafResults, leafWarnings, hg]

/-- The key loop aborts at the first folder key whose recursive listing
fails: the leaves before it are processed, keys after it are not, and the
wrapped error naming the failing path propagates. -/
theorem pullKeysLoop_folder_abort {Payload : Type} (env : VaultEnv Payload)
    (fuel : Nat) (cp : GoStr) (pre : List GoStr) (fk : GoStr) (post : List GoStr)
    (e : GoStr) (hpre : ∀ k ∈ pre, k.getLast? ≠ some '/')
    (hfk : fk.getLast? = some '/')
    (hlist : env.list (cp ++ gs "/" ++ fk.dropLast ++ gs "/metadata") = .error e) :
    ∀ secrets warnings,
      pullKeysLoop env (fuel + 1) cp (pre ++ fk :: post) secrets warnings
      = ⟨secrets ++ leafResults env cp pre, warnings ++ leafWarnings env cp pre,
         some (gs "failed to list secrets at " ++
           (cp ++ gs "/" ++ fk.dropLast ++ gs "/metadata") ++ gs ": " ++ e)⟩ := by
  induction pre with
  | nil =>
    intro s w
    rw [List.nil_append, pullKeysLoop, if_pos hfk]
    dsimp only
    rw [pullSecretsRecursivelyHelper.eq_def]
    have hlist' := hlist
    simp only [List.append_assoc] at hlist'
    simp [hlist', leafResults, leafWarnings]
  | cons k rest ih =>
    intro s w
    rw [List.cons_append, pullKeysLoop, if_neg (hpre k (List.mem_cons_self k rest))]
    rcases hg : getSecret env.httpGet (walkerSecretPath cp k) with e' | d
    · simp only [ih (fun x hx => hpre x (List.mem_cons_of_mem k hx))]
      simp [leafResults, leafWarnings, hg]
    · simp only [ih (fun x hx => hpre x (List.mem_cons_of_mem k hx))]
      simp [leafResults, leafWarnings, hg]

/-- The write loop of `PullSecretsToFiles` only accumulates warnings. -/
theorem pullWriteFold {Payload : Type} (env : VaultEnv Payload) (bp od : GoStr) :
    ∀ (secrets : List (GoStr × Payload)) (ws : List GoStr),
      secrets.foldl (fun ws sd =>
        match writeSecretToFileResult env sd.1 sd.2 bp od with
        | .error e => ws ++
            [gs "Warning: Failed to write secret " ++ sd.1 ++ gs ": " ++ e]
        | .ok _ => ws) ws
      = ws ++ writeWarnings env bp od secrets := by
  intro secrets
  induction secrets with
  | nil => intro ws; simp [writeWarnings]
  | cons sd rest ih =>
    intro ws
    rw [List.foldl_cons]
    rcases hw : writeSecretToFileResult env sd.1 sd.2 bp od with e | u
    · simp only [ih]
      simp [writeWarnings, hw]
    · simp only [ih]
      simp [writeWarnings, hw]

/-- **C3.**  During Pull: (i) a failure listing the base path aborts
`PullSecretsToFiles` with a wrapped error identifying that path; (ii) over
leaf keys, every payload-fetch failure and every file-write failure is
reported as a `Warning:` line and that leaf is skipped while the operation
continues, and `PullSecretsToFiles` returns no error; (iii) a failure
listing a nested subtree aborts the walk — the keys before the folder are
processed, those after it are not — propagating a wrapped error that
identifies the failing path. -/
theorem pull_failure_policy (Payload : Type) (env : VaultEnv Payload) :
    (∀ (fuel : Nat) (basePath outputDir e : GoStr),
      env.list basePath = .error e →
      pullSecretsToFiles env (fuel + 1) basePath outputDir
        = ([], some (gs "failed to pull secrets: " ++
            (gs "failed to list secrets at " ++ basePath ++ gs ": " ++ e)))) ∧
    (∀ (fuel : Nat) (basePath outputDir : GoStr) (keys : List GoStr),
      env.list basePath = .ok keys →
      (∀ k ∈ keys, k.getLast? ≠ some '/') →
      pullSecretsToFiles env (fuel + 1) basePath outputDir
        = (leafWarnings env basePath keys ++
            writeWarnings env basePath outputDir (leafResults env basePath keys),
           none)) ∧
    (∀ (fuel : Nat) (currentPath : GoStr) (secrets : List (GoStr × Payload))
        (warnings : List GoStr) (pre : List GoStr) (fk : GoStr)
        (post : List GoStr) (e : GoStr),
      env.list currentPath = .ok (pre ++ fk :: post) →
      (∀ k ∈ pre, k.getLast? ≠ some '/') → fk.getLast? = some '/' →
      env.list (currentPath ++ gs "/" ++ fk.dropLast ++ gs "/metadata") = .error e →
      pullSecretsRecursivelyHelper env (fuel + 2) currentPath secrets warnings
        = ⟨secrets ++ leafResults env currentPath pre,
           warnings ++ leafWarnings env currentPath pre,
           some (gs "failed to list secrets at " ++
             (currentPath ++ gs "/" ++ fk.dropLast ++ gs "/metadata") ++
             gs ": " ++ e)⟩) := by
  refine ⟨?_, ?_, ?_⟩
  · intro fuel basePath outputDir e hlist
    rw [pullSecretsToFiles, pullSecretsRecursivelyHelper, hlist]
  · intro fuel basePath outputDir keys hlist hkeys
    rw [pullSecretsToFiles, pullSecretsRecursivelyHelper, hlist]
    simp only [pullKeysLoop_leaves env fuel basePath keys hkeys [] [],
      List.nil_append]
    rw [pullWriteFold env basePath outputDir]
  · intro fuel currentPath secrets warnings pre fk post e hlist hpre hfk hsub
    rw [pullSecretsRecursivelyHelper, hlist]
    exact pullKeysLoop_folder_abort env fuel currentPath pre fk post e hpre hfk
      hsub secrets warnings

/-- **C3, witness**: a two-leaf listing where fetching `broken` fails and
every file write fails; and a listing whose nested subtree `sub/` cannot be
listed. -/
theorem pull_failure_policy_witness :
    pullSecretsToFiles c3envB 1 (gs "nope") (gs "out")
      = ([], some (gs "failed to pull secrets: " ++
          (gs "failed to list secrets at " ++ gs "nope" ++ gs ": " ++ gs "boom"))) ∧
    pullSecretsToFiles c3envB 1 (gs "kv/metadata") (gs "out")
      = (leafWarnings c3envB (gs "kv/metadata") [gs "a", gs "broken"] ++
         writeWarnings c3envB (gs "kv/metadata") (gs "out")
           (leafResults c3envB (gs "kv/metadata") [gs "a", gs "broken"]), none) ∧
    pullSecretsRecursivelyHelper c3envC 2 (gs "kv/metadata") [] []
      = ⟨leafResults c3envC (gs "kv/metadata") [gs "a"],
         leafWarnings c3envC (gs "kv/metadata") [gs "a"],
         some (gs "failed to list secrets at " ++
           (gs "kv/metadata" ++ gs "/" ++ (gs "sub/").dropLast ++ gs "/metadata") ++
           gs ": " ++ gs "boom")⟩ := by
  refine ⟨?_, ?_, ?_⟩
  · exact (pull_failure_policy Unit c3envB).1 0 (gs "nope") (gs "out") (gs "boom")
      (by rfl)
  · exact (pull_failure_policy Unit c3envB).2.1 0 (gs "kv/metadata") (gs "out")
      [gs "a", gs "broken"] (by rfl) (by decide)
  · exact (pull_failure_policy Unit c3envC).2.2 0 (gs "kv/metadata") [] []
      [gs "a"] (gs "sub/") [] (gs "boom") (by rfl) (by decide) (by decide) (by rfl)

/-! ## Claim C6: push fail-fast -/

/-- `filepath.Walk` aborts at the first entry whose walk function errors:
entries before it contribute their calls, the failing entry contributes its
calls and its error, and entries after it are never visited. -/
theorem pushWalk_abort {Payload : Type} (env : PushEnv Payload) (dryRun : Bool)
    (baseDir kvEngine subPath : GoStr) (bad : FileEntry) (post : List FileEntry)
    (badCalls : List GoStr) (err : GoStr)
    (hbad : pushWalkStep env dryRun baseDir kvEngine subPath bad
      = (badCalls, .error err)) :
    ∀ pre : List FileEntry,
      (∀ f ∈ pre, (pushWalkStep env dryRun baseDir kvEngine subPath f).2 = .ok ()) →
      pushWalk env dryRun baseDir kvEngine subPath (pre ++ bad :: post)
        = ((pre.map fun f =>
              (pushWalkStep env dryRun baseDir kvEngine subPath f).1).flatten
            ++ badCalls, some err) := by
  intro pre
  induction pre with
  | nil =>
    intro _
    rw [List.nil_append, pushWalk]
    dsimp only
    rw [hbad]
    simp
  | cons f rest ih =>
    intro hpre
    rw [List.cons_append, pushWalk]
    dsimp only
    rcases hs : pushWalkStep env dryRun baseDir kvEngine subPath f with ⟨calls, r⟩
    have hr : r = .ok () := by
      have h := hpre f (List.mem_cons_self f rest)
      rw [hs] at h
      exact h
    subst hr
    rw [ih (fun x hx => hpre x (List.mem_cons_of_mem f hx))]
    simp [hs]

/-- **C6.**  During a (non-dry-run) Push over multiple local files, the
first walk-function error — a file-read failure, a YAML decode failure
(wrapped with the offending file's name), or a remote write failure for one
secret, all of which `pushWalkStep` produces — terminates the
`filepath.Walk` traversal and aborts the whole push with that error; the
`PutSecret` calls made are exactly those of the earlier entries plus the
failing entry's, and entries later in traversal order are not attempted. -/
theorem push_fail_fast (Payload : Type) (env : PushEnv Payload)
    (dirExists : GoStr → Bool) (inputDir metadataPath kvEngine : GoStr)
    (restParts : List GoStr)
    (hsplit : goSplit '/' metadataPath = kvEngine :: gs "metadata" :: restParts)
    (subPath baseDir : GoStr) (hsub : subPath = goJoin '/' restParts)
    (hbase : baseDir = if restParts.length ≠ 0 then filepathJoin inputDir subPath
      else inputDir)
    (hdir : dirExists baseDir = true)
    (pre : List FileEntry) (bad : FileEntry) (post : List FileEntry)
    (badCalls : List GoStr) (err : GoStr)
    (hpre : ∀ f ∈ pre, (pushWalkStep env false baseDir kvEngine subPath f).2 = .ok ())
    (hbad : pushWalkStep env false baseDir kvEngine subPath bad
      = (badCalls, .error err)) :
    pushSecretsFromFiles env dirExists false inputDir metadataPath
        (pre ++ bad :: post)
      = ((pre.map fun f =>
            (pushWalkStep env false baseDir kvEngine subPath f).1).flatten
          ++ badCalls, some err) := by
  subst hsub
  subst hbase
  rw [pushSecretsFromFiles, hsplit]
  dsimp only
  rw [if_pos rfl, if_pos hdir]
  exact pushWalk_abort env false _ kvEngine _ bad post badCalls err hbad pre hpre

/-- **C6, witness**: pushing the tree `in/` (a directory entry, then
`a.yaml`, then `b.yaml`) to `kv/metadata`, where the remote write for `a`
fails: the push aborts with `HTTP 500` after calling `PutSecret` only for
`kv/metadata/a`; `b.yaml` is never attempted. -/
theorem push_fail_fast_witness :
    pushSecretsFromFiles c6env (fun _ => true) false (gs "in") (gs "kv/metadata")
      [⟨gs "in", true⟩, ⟨gs "in/a.yaml", false⟩, ⟨gs "in/b.yaml", false⟩]
      = ([gs "kv/metadata/a"], some (gs "HTTP 500")) := by
  have h := push_fail_fast Unit c6env (fun _ => true) (gs "in") (gs "kv/metadata")
    (gs "kv") [] (by decide) [] (gs "in") rfl (by simp) rfl
    [⟨gs "in", true⟩] ⟨gs "in/a.yaml", false⟩ [⟨gs "in/b.yaml", false⟩]
    [gs "kv/metadata/a"] (gs "HTTP 500")
    (by
      intro f hf
      rw [List.mem_singleton] at hf
      subst hf
      rfl)
    (by rfl)
  exact h

/-! ## Claims C8 and C10: hunk structure of the unified diff

The two claims share the loop invariant `DiffInv` and the lemmas below. -/

theorem trailingSpaceCount_append_singleton (xs : List GoStr) (l : GoStr) :
    trailingSpaceCount (xs ++ [l])
      = if isSpaceLine l then trailingSpaceCount xs + 1 else 0 := by
  rw [trailingSpaceCount, List.reverse_append]
  by_cases h : isSpaceLine l
  · simp [h, trailingSpaceCount, List.takeWhile_cons]
  · simp [h, List.takeWhile_cons]

theorem trailingSpaceCount_le_length (xs : List GoStr) :
    trailingSpaceCount xs ≤ xs.length := by
  rw [trailingSpaceCount]
  calc (xs.reverse.takeWhile isSpaceLine).length
      ≤ xs.reverse.length := (List.takeWhile_sublist _).length_le
    _ = xs.length := List.length_reverse xs

theorem leadingSpaceCount_append_of_nonspace {xs : List GoStr}
    (h : ∃ l ∈ xs, ¬isSpaceLine l = true) (ys : List GoStr) :
    leadingSpaceCount (xs ++ ys) = leadingSpaceCount xs := by
  induction xs with
  | nil =>
    rcases h with ⟨l, hl, _⟩
    simp at hl
  | cons x rest ih =>
    by_cases hx : isSpaceLine x
    · have hrest : ∃ l ∈ rest, ¬isSpaceLine l = true := by
        rcases h with ⟨l, hl, hnl⟩
        rcases List.mem_cons.mp hl with rfl | hl2
        · exact absurd hx hnl
        · exact ⟨l, hl2, hnl⟩
      rw [List.cons_append, leadingSpaceCount, leadingSpaceCount,
        List.takeWhile_cons, List.takeWhile_cons, if_pos hx, if_pos hx]
      simp only [List.length_cons]
      have := ih hrest
      rw [leadingSpaceCount, leadingSpaceCount] at this
      omega
    · rw [List.cons_append, leadingSpaceCount, leadingSpaceCount,
        List.takeWhile_cons, List.takeWhile_cons, if_neg hx, if_neg hx]

theorem leadingSpaceCount_append_of_all_space {xs : List GoStr}
    (h : ∀ l ∈ xs, isSpaceLine l = true) (ys : List GoStr) :
    leadingSpaceCount (xs ++ ys) = xs.length + leadingSpaceCount ys := by
  induction xs with
  | nil => simp
  | cons x rest ih =>
    rw [List.cons_append, leadingSpaceCount, List.takeWhile_cons,
      if_pos (h x (List.mem_cons_self x rest))]
    simp only [List.length_cons]
    have := ih (fun l hl => h l (List.mem_cons_of_mem x hl))
    rw [leadingSpaceCount] at this
    rw [leadingSpaceCount] at this ⊢
    omega

theorem leadingSpaceCount_cons_of_nonspace {d : GoStr}
    (hd : ¬isSpaceLine d = true) (ys : List GoStr) :
    leadingSpaceCount (d :: ys) = 0 := by
  rw [leadingSpaceCount, List.takeWhile_cons, if_neg hd]
  rfl

theorem minusCount_append (xs ys : List GoStr) :
    minusCount (xs ++ ys) = minusCount xs + minusCount ys := by
  simp [minusCount, List.filter_append]

theorem plusCount_append (xs ys : List GoStr) :
    plusCount (xs ++ ys) = plusCount xs + plusCount ys := by
  simp [plusCount, List.filter_append]

theorem hunkHeader_head (s oc nc : Nat) :
    (hunkHeader s oc nc).head? = some '@' := rfl

theorem minusCount_writeHunk (s e o n : Nat) (lines : List GoStr) :
    minusCount (writeHunk s e o n lines) = minusCount lines := by
  rw [writeHunk, minusCount, List.filter_cons]
  have : isMinusLine (hunkHeader s (hunkOldCount lines) (hunkNewCount lines))
      = false := by
    rw [isMinusLine, hunkHeader_head]
    decide
  rw [this]
  rfl

theorem plusCount_writeHunk (s e o n : Nat) (lines : List GoStr) :
    plusCount (writeHunk s e o n lines) = plusCount lines := by
  rw [writeHunk, plusCount, List.filter_cons]
  have : isPlusLine (hunkHeader s (hunkOldCount lines) (hunkNewCount lines))
      = false := by
    rw [isPlusLine, hunkHeader_head]
    decide
  rw [this]
  rfl

theorem diffMinusTotal_succ (el nl : List GoStr) (n : Nat) :
    diffMinusTotal el nl (n + 1) = diffMinusTotal el nl n +
      (if el.getD n [] ≠ nl.getD n [] ∧ el.getD n [] ≠ [] then 1 else 0) := by
  rw [diffMinusTotal, diffMinusTotal, List.range_succ, List.filter_append,
    List.length_append]
  congr 1
  rw [List.filter_singleton]
  by_cases h : el.getD n [] ≠ nl.getD n [] ∧ el.getD n [] ≠ []
  · rw [decide_eq_true h, if_pos h]
    rfl
  · rw [decide_eq_false h, if_neg h]
    rfl

theorem diffPlusTotal_succ (el nl : List GoStr) (n : Nat) :
    diffPlusTotal el nl (n + 1) = diffPlusTotal el nl n +
      (if el.getD n [] ≠ nl.getD n [] ∧ nl.getD n [] ≠ [] then 1 else 0) := by
  rw [diffPlusTotal, diffPlusTotal, List.range_succ, List.filter_append,
    List.length_append]
  congr 1
  rw [List.filter_singleton]
  by_cases h : el.getD n [] ≠ nl.getD n [] ∧ nl.getD n [] ≠ []
  · rw [decide_eq_true h, if_pos h]
    rfl
  · rw [decide_eq_false h, if_neg h]
    rfl

theorem getD_ne_nil_lt {l : List GoStr} {i : Nat} (h : l.getD i [] ≠ []) :
    i < l.length := by
  by_contra hge
  exact h (List.getD_eq_default l [] (Nat.le_of_not_lt hge))

theorem isSpaceLine_space (x : GoStr) : isSpaceLine (' ' :: x) = true := by
  simp [isSpaceLine]

theorem isSpaceLine_minus (x : GoStr) : isSpaceLine ('-' :: x) = false := by
  simp [isSpaceLine]

theorem isSpaceLine_plus (x : GoStr) : isSpaceLine ('+' :: x) = false := by
  simp [isSpaceLine]

theorem isMinusLine_minus (x : GoStr) : isMinusLine ('-' :: x) = true := by
  simp [isMinusLine]

theorem isMinusLine_space (x : GoStr) : isMinusLine (' ' :: x) = false := by
  simp [isMinusLine]

theorem isMinusLine_plus (x : GoStr) : isMinusLine ('+' :: x) = false := by
  simp [isMinusLine]

theorem isPlusLine_plus (x : GoStr) : isPlusLine ('+' :: x) = true := by
  simp [isPlusLine]

theorem isPlusLine_space (x : GoStr) : isPlusLine (' ' :: x) = false := by
  simp [isPlusLine]

theorem isPlusLine_minus (x : GoStr) : isPlusLine ('-' :: x) = false := by
  simp [isPlusLine]

theorem diffCtx_all_space (el : List GoStr) (i : Nat) :
    ∀ l ∈ diffCtx el i, isSpaceLine l = true := by
  intro l hl
  rw [diffCtx] at hl
  rcases List.mem_filterMap.mp hl with ⟨j, -, hj⟩
  by_cases hjl : j < el.length
  · rw [if_pos hjl] at hj
    cases hj
    exact isSpaceLine_space _
  · rw [if_neg hjl] at hj
    cases hj

theorem diffCtx_length_le (el : List GoStr) (i : Nat) :
    (diffCtx el i).length ≤ 3 := by
  rw [diffCtx]
  calc ((List.range' (i - 3) (i - (i - 3))).filterMap _).length
      ≤ (List.range' (i - 3) (i - (i - 3))).length :=
        List.length_filterMap_le _ _
    _ = i - (i - 3) := List.length_range' ..
    _ ≤ 3 := by omega

/-- `diffStep` at an index where the lines agree, outside a hunk: no-op. -/
theorem diffStep_equal_notin {el nl : List GoStr} {i : Nat} {st : DiffState}
    (heq : el.getD i [] = nl.getD i []) (hin : st.inHunk = false) :
    diffStep el nl st i = st := by
  rw [diffStep]
  dsimp only
  rw [if_neg (not_not_intro heq), if_neg (by simp [hin])]

/-- `diffStep` at an agreeing index inside a hunk, when fewer than 3 context
lines have accumulated: append one context line. -/
theorem diffStep_equal_in_noflush {el nl : List GoStr} {i : Nat} {st : DiffState}
    (heq : el.getD i [] = nl.getD i []) (hin : st.inHunk = true)
    (hnf : ¬3 ≤ trailingSpaceCount (st.hunkLines ++ [' ' :: el.getD i []])) :
    diffStep el nl st i = { st with hunkLines := st.hunkLines ++ [' ' :: el.getD i []] } := by
  rw [diffStep]
  dsimp only
  rw [if_neg (not_not_intro heq), if_pos (by simp [hin]), if_neg hnf]

/-- `diffStep` at an agreeing index inside a hunk, on the third trailing
context line: the hunk is flushed in full (the slice `[:len-count+3]` is the
whole list) and the hunk state is closed. -/
theorem diffStep_equal_in_flush {el nl : List GoStr} {i : Nat} {st : DiffState}
    (heq : el.getD i [] = nl.getD i []) (hin : st.inHunk = true)
    (hf : 3 ≤ trailingSpaceCount (st.hunkLines ++ [' ' :: el.getD i []]))
    (h3 : trailingSpaceCount (st.hunkLines ++ [' ' :: el.getD i []]) = 3) :
    diffStep el nl st i =
      { out := st.out ++ writeHunk st.hunkStart
          (i - trailingSpaceCount (st.hunkLines ++ [' ' :: el.getD i []]) + 1)
          el.length nl.length (st.hunkLines ++ [' ' :: el.getD i []]),
        inHunk := false, hunkStart := st.hunkStart,
        hunkLines := st.hunkLines ++ [' ' :: el.getD i []] } := by
  rw [diffStep]
  dsimp only
  rw [if_neg (not_not_intro heq), if_pos (by simp [hin]), if_pos hf]
  have hlen : 3 ≤ (st.hunkLines ++ [' ' :: el.getD i []]).length :=
    h3 ▸ trailingSpaceCount_le_length _
  have harith : (st.hunkLines ++ [' ' :: el.getD i []]).length -
      trailingSpaceCount (st.hunkLines ++ [' ' :: el.getD i []]) + 3
      = (st.hunkLines ++ [' ' :: el.getD i []]).length := by
    rw [h3]
    omega
  rw [harith, List.take_length]

/-- `diffStep` at a differing index: ensure a hunk is open (collecting up to
3 context lines when starting one), then append the `-` line when the old
side is non-empty and the `+` line when the new side is non-empty. -/
theorem diffStep_differ {el nl : List GoStr} {i : Nat} {st : DiffState}
    (hne : el.getD i [] ≠ nl.getD i []) :
    diffStep el nl st i =
      { out := st.out, inHunk := true,
        hunkStart := if st.inHunk then st.hunkStart else i - 3,
        hunkLines := ((if st.inHunk then st.hunkLines else diffCtx el i) ++
          (if el.getD i [] ≠ [] then ['-' :: el.getD i []] else [])) ++
          (if nl.getD i [] ≠ [] then ['+' :: nl.getD i []] else []) } := by
  rw [diffStep]
  dsimp only
  rw [if_pos hne]
  have hcondE : (i < el.length ∧ el.getD i [] ≠ []) ↔ el.getD i [] ≠ [] :=
    ⟨fun h => h.2, fun h => ⟨getD_ne_nil_lt h, h⟩⟩
  have hcondN : (i < nl.length ∧ nl.getD i [] ≠ []) ↔ nl.getD i [] ≠ [] :=
    ⟨fun h => h.2, fun h => ⟨getD_ne_nil_lt h, h⟩⟩
  simp only [List.getD_eq_getElem?_getD] at hcondE hcondN hne ⊢
  have hltE : el[i]?.getD [] ≠ [] → i < el.length := fun h =>
    getD_ne_nil_lt (l := el) (by simpa [List.getD_eq_getElem?_getD] using h)
  have hltN : nl[i]?.getD [] ≠ [] → i < nl.length := fun h =>
    getD_ne_nil_lt (l := nl) (by simpa [List.getD_eq_getElem?_getD] using h)
  by_cases hin : st.inHunk <;> by_cases hE : el[i]?.getD [] = [] <;>
    by_cases hN : nl[i]?.getD [] = []
  all_goals try exact absurd (hE.trans hN.symm) hne
  all_goals simp [hin, hE, hN, hltE, hltN, Bool.not_eq_true]
  all_goals (repeat' split) <;> (try simp)

theorem space_not_minus {l : GoStr} (h : isSpaceLine l = true) :
    isMinusLine l = false := by
  rw [isSpaceLine, decide_eq_true_eq] at h
  rw [isMinusLine, h]
  decide

theorem space_not_plus {l : GoStr} (h : isSpaceLine l = true) :
    isPlusLine l = false := by
  rw [isSpaceLine, decide_eq_true_eq] at h
  rw [isPlusLine, h]
  decide

theorem minusCount_of_all_space {xs : List GoStr}
    (h : ∀ l ∈ xs, isSpaceLine l = true) : minusCount xs = 0 := by
  rw [minusCount, List.filter_eq_nil_iff.mpr
    (fun a ha => by rw [space_not_minus (h a ha)]; decide)]
  rfl

theorem plusCount_of_all_space {xs : List GoStr}
    (h : ∀ l ∈ xs, isSpaceLine l = true) : plusCount xs = 0 := by
  rw [plusCount, List.filter_eq_nil_iff.mpr
    (fun a ha => by rw [space_not_plus (h a ha)]; decide)]
  rfl

/-- The invariant is preserved by one loop iteration. -/
theorem diffInv_step (el nl : List GoStr) (i : Nat) (st : DiffState)
    (h : DiffInv el nl i st) : DiffInv el nl (i + 1) (diffStep el nl st i) := by
  obtain ⟨hblocks, hhunk, hminus, hplus⟩ := h
  by_cases heq : el.getD i [] = nl.getD i []
  · have hmt : diffMinusTotal el nl (i + 1) = diffMinusTotal el nl i := by
      rw [diffMinusTotal_succ, if_neg (fun hc => hc.1 heq), Nat.add_zero]
    have hpt : diffPlusTotal el nl (i + 1) = diffPlusTotal el nl i := by
      rw [diffPlusTotal_succ, if_neg (fun hc => hc.1 heq), Nat.add_zero]
    by_cases hin : st.inHunk = true
    · obtain ⟨hmark, hlead, htrail, hwit⟩ := hhunk hin
      have hts : trailingSpaceCount (st.hunkLines ++ [' ' :: el.getD i []])
          = trailingSpaceCount st.hunkLines + 1 := by
        rw [trailingSpaceCount_append_singleton, if_pos (isSpaceLine_space _)]
      have hmc : minusCount (st.hunkLines ++ [' ' :: el.getD i []])
          = minusCount st.hunkLines := by
        rw [minusCount_append,
          @minusCount_of_all_space [' ' :: el.getD i []]
            (by intro l hl; rw [List.mem_singleton] at hl; subst hl
                exact isSpaceLine_space _)]
        omega
      have hpc : plusCount (st.hunkLines ++ [' ' :: el.getD i []])
          = plusCount st.hunkLines := by
        rw [plusCount_append,
          @plusCount_of_all_space [' ' :: el.getD i []]
            (by intro l hl; rw [List.mem_singleton] at hl; subst hl
                exact isSpaceLine_space _)]
        omega
      have hmarks : ∀ l ∈ st.hunkLines ++ [' ' :: el.getD i []],
          isSpaceLine l ∨ isMinusLine l ∨ isPlusLine l := by
        intro l hl
        rcases List.mem_append.mp hl with h1 | h1
        · exact hmark l h1
        · rw [List.mem_singleton] at h1
          subst h1
          exact Or.inl (isSpaceLine_space _)
      by_cases hf : 3 ≤ trailingSpaceCount (st.hunkLines ++ [' ' :: el.getD i []])
      · have h3 : trailingSpaceCount (st.hunkLines ++ [' ' :: el.getD i []]) = 3 := by
          omega
        rw [diffStep_equal_in_flush heq hin hf h3]
        refine ⟨?_, ?_, ?_, ?_⟩
        · obtain ⟨bs, hout, hgood⟩ := hblocks
          refine ⟨bs ++ [writeHunk st.hunkStart
            (i - trailingSpaceCount (st.hunkLines ++ [' ' :: el.getD i []]) + 1)
            el.length nl.length (st.hunkLines ++ [' ' :: el.getD i []])], ?_, ?_⟩
          · simp [hout]
          · intro b hb
            rcases List.mem_append.mp hb with h1 | h1
            · exact hgood b h1
            · rw [List.mem_singleton] at h1
              subst h1
              refine ⟨st.hunkStart, st.hunkLines ++ [' ' :: el.getD i []],
                ⟨hmarks, ?_, ?_, ?_⟩, rfl⟩
              · rw [leadingSpaceCount_append_of_nonspace hwit]
                exact hlead
              · rw [h3]
              · rcases hwit with ⟨w, hw, hwn⟩
                exact ⟨w, List.mem_append_left _ hw, hwn⟩
        · intro hcontra
          simp at hcontra
        · dsimp only
          rw [if_neg (by decide), minusCount_append, minusCount_writeHunk, hmc,
            hmt, ← hminus, if_pos hin]
          omega
        · dsimp only
          rw [if_neg (by decide), plusCount_append, plusCount_writeHunk, hpc,
            hpt, ← hplus, if_pos hin]
          omega
      · rw [diffStep_equal_in_noflush heq hin hf]
        refine ⟨hblocks, ?_, ?_, ?_⟩
        · intro _
          refine ⟨hmarks, ?_, ?_, ?_⟩
          · rw [leadingSpaceCount_append_of_nonspace hwit]
            exact hlead
          · show trailingSpaceCount (st.hunkLines ++ [' ' :: el.getD i []]) ≤ 2
            omega
          · rcases hwit with ⟨w, hw, hwn⟩
            exact ⟨w, List.mem_append_left _ hw, hwn⟩
        · dsimp only
          rw [if_pos hin, hmc, hmt, ← hminus, if_pos hin]
        · dsimp only
          rw [if_pos hin, hpc, hpt, ← hplus, if_pos hin]
    · rw [diffStep_equal_notin heq (Bool.not_eq_true _ ▸ hin)]
      refine ⟨hblocks, hhunk, ?_, ?_⟩
      · rw [hmt]; exact hminus
      · rw [hpt]; exact hplus
  · -- a differing index: a hunk is open and the marked lines are appended
    rw [diffStep_differ heq]
    have hEN : el.getD i [] ≠ [] ∨ nl.getD i [] ≠ [] := by
      by_contra hc
      push_neg at hc
      exact heq (hc.1.trans hc.2.symm)
    have hbaseMark : ∀ l ∈ (if st.inHunk then st.hunkLines else diffCtx el i),
        isSpaceLine l ∨ isMinusLine l ∨ isPlusLine l := by
      by_cases hin : st.inHunk = true
      · rw [if_pos hin]
        exact (hhunk hin).1
      · rw [if_neg hin]
        intro l hl
        exact Or.inl (diffCtx_all_space el i l hl)
    have hdmMark : ∀ l ∈ ((if el.getD i [] ≠ [] then ['-' :: el.getD i []] else []) ++
        (if nl.getD i [] ≠ [] then ['+' :: nl.getD i []] else [])),
        isSpaceLine l ∨ isMinusLine l ∨ isPlusLine l := by
      intro l hl
      rcases List.mem_append.mp hl with h1 | h1
      · by_cases hE : el.getD i [] ≠ []
        · rw [if_pos hE, List.mem_singleton] at h1
          subst h1
          exact Or.inr (Or.inl (isMinusLine_minus _))
        · rw [if_neg hE] at h1
          cases h1
      · by_cases hN : nl.getD i [] ≠ []
        · rw [if_pos hN, List.mem_singleton] at h1
          subst h1
          exact Or.inr (Or.inr (isPlusLine_plus _))
        · rw [if_neg hN] at h1
          cases h1
    have hdmdp : ∃ w rest, ((if el.getD i [] ≠ [] then ['-' :: el.getD i []] else []) ++
        (if nl.getD i [] ≠ [] then ['+' :: nl.getD i []] else [])) = w :: rest ∧
        ¬isSpaceLine w = true := by
      by_cases hE : el.getD i [] ≠ []
      · rw [if_pos hE]
        exact ⟨'-' :: el.getD i [], _, rfl, by rw [isSpaceLine_minus]; decide⟩
      · have hN : nl.getD i [] ≠ [] := hEN.resolve_left hE
        rw [if_neg hE, if_pos hN, List.nil_append]
        exact ⟨'+' :: nl.getD i [], [], rfl, by rw [isSpaceLine_plus]; decide⟩
    refine ⟨hblocks, ?_, ?_, ?_⟩
    · intro _
      dsimp only
      refine ⟨?_, ?_, ?_, ?_⟩
      · intro l hl
        rw [List.append_assoc] at hl
        rcases List.mem_append.mp hl with h1 | h1
        · exact hbaseMark l h1
        · exact hdmMark l h1
      · rw [List.append_assoc]
        obtain ⟨w, rest, hw, hwn⟩ := hdmdp
        by_cases hin : st.inHunk = true
        · rw [if_pos hin]
          rcases (hhunk hin).2.2.2 with ⟨v, hv, hvn⟩
          rw [leadingSpaceCount_append_of_nonspace ⟨v, hv, hvn⟩]
          exact (hhunk hin).2.1
        · rw [if_neg hin]
          rw [leadingSpaceCount_append_of_all_space (diffCtx_all_space el i), hw,
            leadingSpaceCount_cons_of_nonspace hwn]
          have := diffCtx_length_le el i
          omega
      · by_cases hN : nl.getD i [] ≠ []
        · rw [if_pos hN, trailingSpaceCount_append_singleton,
            if_neg (by rw [isSpaceLine_plus]; decide)]
          omega
        · have hE : el.getD i [] ≠ [] := hEN.resolve_right hN
          rw [if_neg hN, List.append_nil, if_pos hE,
            trailingSpaceCount_append_singleton,
            if_neg (by rw [isSpaceLine_minus]; decide)]
          omega
      · obtain ⟨w, rest, hw, hwn⟩ := hdmdp
        refine ⟨w, ?_, hwn⟩
        rw [List.append_assoc, hw]
        exact List.mem_append_right _ (List.mem_cons_self w rest)
    · dsimp only
      rw [if_pos rfl, minusCount_append, minusCount_append]
      have hbase : minusCount (if st.inHunk then st.hunkLines else diffCtx el i)
          = (if st.inHunk then minusCount st.hunkLines else 0) := by
        by_cases hin : st.inHunk = true
        · rw [if_pos hin, if_pos hin]
        · rw [if_neg hin, if_neg hin,
            minusCount_of_all_space (diffCtx_all_space el i)]
      have hdm : minusCount (if el.getD i [] ≠ [] then ['-' :: el.getD i []] else [])
          = (if el.getD i [] ≠ nl.getD i [] ∧ el.getD i [] ≠ [] then 1 else 0) := by
        by_cases hE : el.getD i [] ≠ []
        · rw [if_pos hE, if_pos ⟨heq, hE⟩]
          simp [minusCount, isMinusLine_minus]
        · rw [if_neg hE, if_neg (fun hc => hE hc.2)]
          rfl
      have hdp : minusCount (if nl.getD i [] ≠ [] then ['+' :: nl.getD i []] else [])
          = 0 := by
        by_cases hN : nl.getD i [] ≠ []
        · rw [if_pos hN]
          simp [minusCount, isMinusLine_plus]
        · rw [if_neg hN]
          rfl
      rw [hbase, hdm, hdp, diffMinusTotal_succ, ← hminus]
      omega
    · dsimp only
      rw [if_pos rfl, plusCount_append, plusCount_append]
      have hbase : plusCount (if st.inHunk then st.hunkLines else diffCtx el i)
          = (if st.inHunk then plusCount st.hunkLines else 0) := by
        by_cases hin : st.inHunk = true
        · rw [if_pos hin, if_pos hin]
        · rw [if_neg hin, if_neg hin,
            plusCount_of_all_space (diffCtx_all_space el i)]
      have hdm : plusCount (if el.getD i [] ≠ [] then ['-' :: el.getD i []] else [])
          = 0 := by
        by_cases hE : el.getD i [] ≠ []
        · rw [if_pos hE]
          simp [plusCount, isPlusLine_minus]
        · rw [if_neg hE]
          rfl
      have hdp : plusCount (if nl.getD i [] ≠ [] then ['+' :: nl.getD i []] else [])
          = (if el.getD i [] ≠ nl.getD i [] ∧ nl.getD i [] ≠ [] then 1 else 0) := by
        by_cases hN : nl.getD i [] ≠ []
        · rw [if_pos hN, if_pos ⟨heq, hN⟩]
          simp [plusCount, isPlusLine_plus]
        · rw [if_neg hN, if_neg (fun hc => hN hc.2)]
          rfl
      rw [hbase, hdm, hdp, diffPlusTotal_succ, ← hplus]
      omega

/-- The invariant holds after the whole loop. -/
theorem diffInv_loop (el nl : List GoStr) (n : Nat) :
    DiffInv el nl n ((List.range n).foldl (diffStep el nl) ⟨[], false, 0, []⟩) := by
  induction n with
  | zero =>
    refine ⟨⟨[], rfl, by simp⟩, ?_, rfl, rfl⟩
    intro hx
    rw [List.range_zero, List.foldl_nil] at hx
    exact absurd hx (by decide)
  | succ n ih =>
    rw [List.range_succ, List.foldl_append, List.foldl_cons, List.foldl_nil]
    exact diffInv_step el nl n _ ih

/-- The body of the diff is a concatenation of well-formed hunk blocks. -/
theorem diffBodyLines_blocks (existing newText : GoStr) :
    ∃ bs : List (List GoStr), diffBodyLines existing newText = bs.flatten ∧
      ∀ b ∈ bs, GoodBlock b := by
  rw [diffBodyLines]
  generalize hst : (List.range (max (goSplit '\n' existing).length
      (goSplit '\n' newText).length)).foldl
      (diffStep (goSplit '\n' existing) (goSplit '\n' newText))
      ⟨[], false, 0, []⟩ = st
  obtain ⟨hblocks, hhunk, -, -⟩ := hst ▸ diffInv_loop (goSplit '\n' existing)
    (goSplit '\n' newText)
    (max (goSplit '\n' existing).length (goSplit '\n' newText).length)
  by_cases hin : st.inHunk = true
  · rw [if_pos hin]
    obtain ⟨bs, hout, hgood⟩ := hblocks
    obtain ⟨hmark, hlead, htrail, hwit⟩ := hhunk hin
    refine ⟨bs ++ [writeHunk st.hunkStart
      (max (goSplit '\n' existing).length (goSplit '\n' newText).length)
      (goSplit '\n' existing).length (goSplit '\n' newText).length
      st.hunkLines], ?_, ?_⟩
    · rw [hout]
      simp
    · intro b hb
      rcases List.mem_append.mp hb with h1 | h1
      · exact hgood b h1
      · rw [List.mem_singleton] at h1
        subst h1
        exact ⟨st.hunkStart, st.hunkLines, ⟨hmark, hlead, by omega, hwit⟩, rfl⟩
  · rw [if_neg hin]
    exact hblocks

/-- **C8.**  For every pair of textually different payload encodings, the
diff consists of the four header lines followed by a concatenation of hunks;
each hunk is a `@@ -<oldStart>,<oldCount> +<newStart>,<newCount> @@` header
(where `oldCount` is the number of `-` and `' '` lines of its body and
`newCount` the number of `+` and `' '` lines — `GoodBlock` states exactly
this via `hunkHeader`/`hunkOldCount`/`hunkNewCount`), followed by its body
in which every line is marked `-` (removed), `+` (added) or `' '` (context),
with at most 3 matching context lines before and at most 3 after, and at
least one non-context line.  The grouping is the positional per-index
comparison of `diffStep`. -/
theorem unified_diff_hunk_structure (existing newText filename : GoStr)
    (hne : existing ≠ newText) :
    ∃ bs : List (List GoStr),
      generateUnifiedDiff existing newText filename
        = renderLines (diffHeaderLines existing newText filename ++ bs.flatten) ∧
      diffBodyLines existing newText = bs.flatten ∧
      ∀ b ∈ bs, GoodBlock b := by
  obtain ⟨bs, hbody, hgood⟩ := diffBodyLines_blocks existing newText
  exact ⟨bs, by rw [generateUnifiedDiff, if_neg hne, hbody], hbody, hgood⟩

/-- **C8, witness** on two concrete two-line payload encodings. -/
theorem unified_diff_hunk_structure_witness :
    ∃ bs : List (List GoStr),
      generateUnifiedDiff (gs "a: 1\nb: 2\n") (gs "a: 1\nb: 3\n") (gs "p/x")
        = renderLines (diffHeaderLines (gs "a: 1\nb: 2\n") (gs "a: 1\nb: 3\n")
            (gs "p/x") ++ bs.flatten) ∧
      diffBodyLines (gs "a: 1\nb: 2\n") (gs "a: 1\nb: 3\n") = bs.flatten ∧
      ∀ b ∈ bs, GoodBlock b :=
  unified_diff_hunk_structure (gs "a: 1\nb: 2\n") (gs "a: 1\nb: 3\n") (gs "p/x")
    (by decide)

/-- **C10 (implicit).**  In `generateUnifiedDiff`'s body, a `-` line is
emitted exactly once per index at which the texts' lines differ and the old
line is non-empty, and a `+` line exactly once per index at which they
differ and the new line is non-empty — so empty lines are never marked.
Hence (third and fourth conjuncts) when every difference has an empty old
side, the diff contains no `-` line at all, and when every difference has an
empty new side it contains no `+` line: only one side of such a change is
marked. -/
theorem empty_lines_never_marked (existing newText : GoStr) :
    (minusCount (diffBodyLines existing newText)
      = diffMinusTotal (goSplit '\n' existing) (goSplit '\n' newText)
          (max (goSplit '\n' existing).length (goSplit '\n' newText).length)) ∧
    (plusCount (diffBodyLines existing newText)
      = diffPlusTotal (goSplit '\n' existing) (goSplit '\n' newText)
          (max (goSplit '\n' existing).length (goSplit '\n' newText).length)) ∧
    ((∀ j : Nat, (goSplit '\n' existing).getD j [] = (goSplit '\n' newText).getD j []
        ∨ (goSplit '\n' existing).getD j [] = []) →
      minusCount (diffBodyLines existing newText) = 0) ∧
    ((∀ j : Nat, (goSplit '\n' existing).getD j [] = (goSplit '\n' newText).getD j []
        ∨ (goSplit '\n' newText).getD j [] = []) →
      plusCount (diffBodyLines existing newText) = 0) := by
  have hm : minusCount (diffBodyLines existing newText)
      = diffMinusTotal (goSplit '\n' existing) (goSplit '\n' newText)
          (max (goSplit '\n' existing).length (goSplit '\n' newText).length) := by
    rw [diffBodyLines]
    generalize hst : (List.range (max (goSplit '\n' existing).length
        (goSplit '\n' newText).length)).foldl
        (diffStep (goSplit '\n' existing) (goSplit '\n' newText))
        ⟨[], false, 0, []⟩ = st
    obtain ⟨-, -, hminus, -⟩ := hst ▸ diffInv_loop (goSplit '\n' existing)
      (goSplit '\n' newText)
      (max (goSplit '\n' existing).length (goSplit '\n' newText).length)
    by_cases hin : st.inHunk = true
    · rw [if_pos hin, minusCount_append, minusCount_writeHunk, ← hminus,
        if_pos hin]
    · rw [if_neg hin, ← hminus, if_neg hin]
      omega
  have hp : plusCount (diffBodyLines existing newText)
      = diffPlusTotal (goSplit '\n' existing) (goSplit '\n' newText)
          (max (goSplit '\n' existing).length (goSplit '\n' newText).length) := by
    rw [diffBodyLines]
    generalize hst : (List.range (max (goSplit '\n' existing).length
        (goSplit '\n' newText).length)).foldl
        (diffStep (goSplit '\n' existing) (goSplit '\n' newText))
        ⟨[], false, 0, []⟩ = st
    obtain ⟨-, -, -, hplus⟩ := hst ▸ diffInv_loop (goSplit '\n' existing)
      (goSplit '\n' newText)
      (max (goSplit '\n' existing).length (goSplit '\n' newText).length)
    by_cases hin : st.inHunk = true
    · rw [if_pos hin, plusCount_append, plusCount_writeHunk, ← hplus,
        if_pos hin]
    · rw [if_neg hin, ← hplus, if_neg hin]
      omega
  refine ⟨hm, hp, ?_, ?_⟩
  · intro hall
    rw [hm, diffMinusTotal, List.filter_eq_nil_iff.mpr (fun j _ hc =>
      (hall j).elim (fun h1 => (of_decide_eq_true hc).1 h1)
        (fun h1 => (of_decide_eq_true hc).2 h1))]
    rfl
  · intro hall
    rw [hp, diffPlusTotal, List.filter_eq_nil_iff.mpr (fun j _ hc =>
      (hall j).elim (fun h1 => (of_decide_eq_true hc).1 h1)
        (fun h1 => (of_decide_eq_true hc).2 h1))]
    rfl

/-- **C10, witness**: changing an empty line to `q` produces no `-` line;
changing `q` to an empty line produces no `+` line. -/
theorem empty_lines_never_marked_witness :
    minusCount (diffBodyLines (gs "x\n") (gs "x\ny\n")) = 0 ∧
    plusCount (diffBodyLines (gs "x\ny\n") (gs "x\n")) = 0 :=
  ⟨(empty_lines_never_marked (gs "x\n") (gs "x\ny\n")).2.2.1
    (fun j => match j with
      | 0 => Or.inl rfl
      | 1 => Or.inr rfl
      | 2 => Or.inl rfl
      | (_ + 3) => Or.inl rfl),
   (empty_lines_never_marked (gs "x\ny\n") (gs "x\n")).2.2.2
    (fun j => match j with
      | 0 => Or.inl rfl
      | 1 => Or.inr rfl
      | 2 => Or.inl rfl
      | (_ + 3) => Or.inl rfl)⟩

end VaultSync
